import Mathlib

/-!
# Verification of the Greek-law-mcp ingestion/extraction/parsing core

Shallow embedding of the repository's ingestion pipeline:

* `scripts/lib/pdf-extractor.ts` — extraction strategy selector
  (`isTextUsable`, `extractTextFromPdfBuffer`, the noise-line filter of
  `normalizeText`);
* `scripts/lib/parser.ts` — provision segmenter and definition extractor
  (`normalizeProvisionBody`'s line filter, `dedupeAndSortProvisions`,
  `extractDefinitionsFromProvisions`, `pickBestSearchResult`);
* `scripts/lib/fetcher.ts` — double-encoded envelope decoding
  (`request`, `searchLegislation`, `getDocumentEntityById`);
* the two orchestrator loops (`ingestTargets` of `scripts/ingest.ts`, and the
  country-fulltext enrichment loop).

Modelling conventions:

* JavaScript numbers standing for counts are `Nat`/`Int`; the two quality
  ratios are `ℚ` (the claims under verification only depend on the ordered-field
  structure of the thresholds, not on binary floating point rounding).
* Outputs of external binaries (`pdftotext`, `pdfinfo`, `pdftoppm`,
  `tesseract`) and of the network are inputs of the model: a `PdfDocument`
  record carries what each external strategy would yield for the document.
* JavaScript `Map` is an insertion-ordered association list; `Map.set` on an
  existing key replaces the value in place (this is load-bearing for C4).
* Regexes of the source are translated to character-level matchers.  Unicode
  simple case folding (for the `iu` regex flag) and lowercasing are implemented
  for the Basic Latin and Greek blocks, the only blocks the source's patterns
  use; other characters fold to themselves.
-/

/-! ## Character-level utilities shared by the embedded regexes -/

/-- ASCII decimal digit, the `\d` class of the source's regexes. -/
def isAsciiDigit (c : Char) : Bool := 48 ≤ c.toNat && c.toNat ≤ 57

/-- The JavaScript `\s` class (WhiteSpace ∪ LineTerminator), also the set
trimmed by `String.prototype.trim`. -/
def isJsSpace (c : Char) : Bool :=
  c.toNat = 32 || c.toNat = 9 || c.toNat = 10 || c.toNat = 13 || c.toNat = 11 ||
  c.toNat = 12 || c.toNat = 0xa0 || c.toNat = 0x1680 ||
  (0x2000 ≤ c.toNat && c.toNat ≤ 0x200a) || c.toNat = 0x2028 || c.toNat = 0x2029 ||
  c.toNat = 0x202f || c.toNat = 0x205f || c.toNat = 0x3000 || c.toNat = 0xfeff

/-- JavaScript line terminators: the characters the regex `.` does not match
(without the `s` flag). -/
def isLineTerm (c : Char) : Bool :=
  c.toNat = 10 || c.toNat = 13 || c.toNat = 0x2028 || c.toNat = 0x2029

/-- Unicode simple case folding restricted to the Basic Latin and Greek blocks
(the canonicalisation used by the `iu` regex flag on the source's patterns).
Characters outside these blocks fold to themselves. -/
def foldChar (c : Char) : Char :=
  if 65 ≤ c.toNat && c.toNat ≤ 90 then Char.ofNat (c.toNat + 32)
  else if 0x391 ≤ c.toNat && c.toNat ≤ 0x3a9 && c.toNat ≠ 0x3a2 then
    Char.ofNat (c.toNat + 32)
  else if c.toNat = 0x3c2 then Char.ofNat 0x3c3
  else if c.toNat = 0x386 then Char.ofNat 0x3ac
  else if c.toNat = 0x388 then Char.ofNat 0x3ad
  else if c.toNat = 0x389 then Char.ofNat 0x3ae
  else if c.toNat = 0x38a then Char.ofNat 0x3af
  else if c.toNat = 0x38c then Char.ofNat 0x3cc
  else if c.toNat = 0x38e then Char.ofNat 0x3cd
  else if c.toNat = 0x38f then Char.ofNat 0x3ce
  else c

/-- JavaScript `String.prototype.trim` (drops `\s` characters at both ends). -/
def jsTrim (s : String) : String :=
  String.mk (((s.data.dropWhile isJsSpace).reverse.dropWhile isJsSpace).reverse)

/-- Helper for `normalizeWhitespace`: collapse every maximal run of `\s`
characters to a single space (the flag records whether the previous character
was part of a whitespace run). -/
def collapseWsAux : Bool → List Char → List Char
  | _, [] => []
  | prevSpace, c :: rest =>
    if isJsSpace c then
      if prevSpace then collapseWsAux true rest
      else ' ' :: collapseWsAux true rest
    else c :: collapseWsAux false rest

/-- `parser.ts` `normalizeWhitespace`: `text.replace(/\s+/g, ' ').trim()`. -/
def normalizeWhitespace (s : String) : String :=
  jsTrim (String.mk (collapseWsAux false s.data))

/-! ## Quality metrics and the usability predicate (`pdf-extractor.ts`) -/

/-- `pdf-extractor.ts` `TextQualityMetrics`.  The two ratios are exact
rationals in the model. -/
structure TextQualityMetrics where
  charCount : Nat
  greekRatio : ℚ
  articleHeadingCount : Nat
  mojibakeRatio : ℚ
deriving Repr, DecidableEq

/-- `pdf-extractor.ts` `isTextUsable`, line for line:
reject below 1200 characters, then accept on either heading/ratio gate,
else require a long mostly-Greek text. -/
def isTextUsable (m : TextQualityMetrics) : Bool :=
  if m.charCount < 1200 then false
  else if 2 ≤ m.articleHeadingCount ∧ (3 : ℚ)/10 ≤ m.greekRatio then true
  else if 8 ≤ m.articleHeadingCount ∧ (1 : ℚ)/5 ≤ m.greekRatio then true
  else decide (5000 < m.charCount ∧ (11 : ℚ)/20 ≤ m.greekRatio)

/-- The spec's usability formula, written from the spec's words
(§4.2 step 2): `charCount ≥ 1200` AND (`articleHeadingCount ≥ 2` AND
`greekLetterRatio ≥ 0.30`) OR (`articleHeadingCount ≥ 8` AND
`greekLetterRatio ≥ 0.20`) OR (`charCount > 5000` AND
`greekLetterRatio ≥ 0.55`), with the 1200 bound read as a floor gating all
three disjuncts (the spec elsewhere calls 1200 "the 1200 floor"). -/
def specUsableFormula (m : TextQualityMetrics) : Bool :=
  decide (1200 ≤ m.charCount) &&
    (  (decide (2 ≤ m.articleHeadingCount) && decide ((3 : ℚ)/10 ≤ m.greekRatio))
    || (decide (8 ≤ m.articleHeadingCount) && decide ((1 : ℚ)/5 ≤ m.greekRatio))
    || (decide (5000 < m.charCount) && decide ((11 : ℚ)/20 ≤ m.greekRatio)) )

/-! ## Extraction strategy selector (`pdf-extractor.ts` `extractTextFromPdfBuffer`)

The external binaries (`pdftotext`, `pdfinfo`, `pdftoppm`, `tesseract`) are
opaque capabilities (spec §6); a `PdfDocument` record carries, per document,
what each strategy's text and `assessTextQuality` metrics would be.  The
control flow, the usability gating, the candidate accumulation and the
fallback selection are translated from the source line for line. -/

/-- The `method` tags of `PdfExtractionResult` in the source. -/
inductive ExtractionMethod
  | pdftotext
  | pdftotextWindows1253
  | ocrTesseractCli
  | ocrTesseractJs
deriving DecidableEq, Repr

/-- The string value of a method tag, as in the source's union type. -/
def methodLabel : ExtractionMethod → String
  | .pdftotext => "pdftotext"
  | .pdftotextWindows1253 => "pdftotext_windows1253"
  | .ocrTesseractCli => "ocr_tesseract_cli"
  | .ocrTesseractJs => "ocr_tesseract_js"

/-- `pdf-extractor.ts` `PdfExtractionOptions`: `maxOcrPages` and
`allowLowQualityFallback` are optional; absent `allowLowQualityFallback`
is falsy, absent `maxOcrPages` defaults to 35 at use site. -/
structure PdfExtractionOptions where
  enableOcr : Bool
  maxOcrPages : Option Nat
  allowLowQualityFallback : Option Bool
deriving Repr, DecidableEq

/-- `pdf-extractor.ts` `PdfExtractionResult`. -/
structure PdfExtractionResult where
  text : String
  method : ExtractionMethod
  pageCount : Nat
  metrics : TextQualityMetrics
  warnings : List String
deriving Repr, DecidableEq

/-- Oracle record for one PDF document: the per-strategy outputs of the
external extraction primitives, already normalized (`normalizeText`) and
assessed (`assessTextQuality`), plus the mojibake detection verdict on the
raw native text and the availability facts the OCR branch probes. -/
structure PdfDocument where
  pageCount : Nat
  pdftotextText : String
  pdftotextMetrics : TextQualityMetrics
  mojibakeDetected : Bool
  decodedText : String
  decodedMetrics : TextQualityMetrics
  pagesRendered : Bool
  tesseractCliAvailable : Bool
  ocrText : String
  ocrMetrics : TextQualityMetrics
deriving Repr

/-- Left-pad with a character (`String.prototype.padStart`). -/
def padStartStr (s : String) (n : Nat) (c : Char) : String :=
  String.mk (List.replicate (n - s.length) c) ++ s

/-- `Number.prototype.toFixed(3)` on an exact rational (round to nearest
thousandth). -/
def toFixed3 (q : ℚ) : String :=
  let n : Int := round (q * 1000)
  let sign := if n < 0 then "-" else ""
  let a := n.natAbs
  sign ++ toString (a / 1000) ++ "." ++ padStartStr (toString (a % 1000)) 3 '0'

/-- `pdf-extractor.ts` `summarizeQuality`. -/
def summarizeQuality (m : TextQualityMetrics) : String :=
  "chars=" ++ toString m.charCount ++ ", greek=" ++ toFixed3 m.greekRatio ++
  ", headings=" ++ toString m.articleHeadingCount ++
  ", mojibake=" ++ toFixed3 m.mojibakeRatio

/-- `pdf-extractor.ts` `scoreQuality`. -/
def scoreQuality (m : TextQualityMetrics) : ℚ :=
  m.charCount * (m.greekRatio + 1/20) + m.articleHeadingCount * 4000 -
    m.mojibakeRatio * m.charCount

/-- The fallback selection: filter out empty-text candidates, then take the
head of a stable descending sort by `scoreQuality` — equivalently, the first
candidate with maximal score. -/
def pickFallback (candidates : List PdfExtractionResult) : Option PdfExtractionResult :=
  (candidates.filter (fun c => 0 < (jsTrim c.text).length)).foldl
    (fun best c =>
      match best with
      | none => some c
      | some b => if scoreQuality b.metrics < scoreQuality c.metrics then some c else some b)
    none

/-- The message of the extraction-quality error thrown when nothing is usable
and no fallback is permitted. -/
def qualityErrorMsg (m : TextQualityMetrics) : String :=
  "PDF text quality too low and no fallback available (" ++ summarizeQuality m ++ ")"

/-- Outcome of one `extractTextFromPdfBuffer` call, together with a trace of
whether the two external OCR operations were invoked: `rasterized` records a
`pdftoppm` page-rendering call, `ocrRecognized` a tesseract recognition call. -/
structure ExtractionOutcome where
  result : Except String PdfExtractionResult
  rasterized : Bool
  ocrRecognized : Bool
deriving Repr

/-- Steps of `extractTextFromPdfBuffer` after the native and mojibake
strategies have failed: the OCR branch, the low-quality fallback, and the
final extraction-quality error. -/
def extractAfterMojibake (doc : PdfDocument) (options : PdfExtractionOptions)
    (cands : List PdfExtractionResult) (warnings : List String) : ExtractionOutcome :=
  let finish := fun (cands' : List PdfExtractionResult) (warnings' : List String) =>
    if options.allowLowQualityFallback.getD false then
      match pickFallback cands' with
      | some best =>
          Except.ok { text := best.text, method := best.method, pageCount := doc.pageCount,
                      metrics := best.metrics,
                      warnings := warnings' ++
                        ["Returning low-quality fallback (" ++ methodLabel best.method ++
                          "; " ++ summarizeQuality best.metrics ++ ")"] }
      | none => Except.error (qualityErrorMsg doc.pdftotextMetrics)
    else Except.error (qualityErrorMsg doc.pdftotextMetrics)
  if options.enableOcr then
    let maxOcrPages := options.maxOcrPages.getD 35
    if maxOcrPages < doc.pageCount then
      ⟨finish cands (warnings ++
        ["OCR skipped: " ++ toString doc.pageCount ++ " pages exceeds limit " ++
          toString maxOcrPages]), false, false⟩
    else if !doc.pagesRendered then
      ⟨finish cands (warnings ++ ["OCR failed: no page images rendered"]), true, false⟩
    else
      let ocrMethod := if doc.tesseractCliAvailable then ExtractionMethod.ocrTesseractCli
        else ExtractionMethod.ocrTesseractJs
      let w2 := warnings ++
        ["OCR-derived text may include recognition noise from source scan quality."]
      let w3 := if !isTextUsable doc.ocrMetrics then
          w2 ++ ["OCR quality low (" ++ summarizeQuality doc.ocrMetrics ++ ")"]
        else w2
      let ocrCand : PdfExtractionResult :=
        { text := doc.ocrText, method := ocrMethod, pageCount := doc.pageCount,
          metrics := doc.ocrMetrics, warnings := [] }
      if isTextUsable doc.ocrMetrics then
        ⟨Except.ok { ocrCand with warnings := w3 }, true, true⟩
      else
        ⟨finish (cands ++ [ocrCand]) w3, true, true⟩
  else
    ⟨finish cands (warnings ++
      ["OCR disabled after low-quality pdftotext (" ++
        summarizeQuality doc.pdftotextMetrics ++ ")"]), false, false⟩

/-- `pdf-extractor.ts` `extractTextFromPdfBuffer`: ordered strategy attempts
with short-circuit on the first usable result. -/
def extractTextFromPdfBuffer (doc : PdfDocument) (options : PdfExtractionOptions) :
    ExtractionOutcome :=
  let native : PdfExtractionResult :=
    { text := doc.pdftotextText, method := .pdftotext, pageCount := doc.pageCount,
      metrics := doc.pdftotextMetrics, warnings := [] }
  if isTextUsable doc.pdftotextMetrics then
    ⟨Except.ok { native with warnings := [] }, false, false⟩
  else if doc.mojibakeDetected then
    let decoded : PdfExtractionResult :=
      { text := doc.decodedText, method := .pdftotextWindows1253, pageCount := doc.pageCount,
        metrics := doc.decodedMetrics, warnings := [] }
    if isTextUsable doc.decodedMetrics then
      ⟨Except.ok { decoded with warnings := [] }, false, false⟩
    else
      extractAfterMojibake doc options [native, decoded]
        ["windows-1253 recode quality low (" ++ summarizeQuality doc.decodedMetrics ++ ")"]
  else
    extractAfterMojibake doc options [native] []

/-- A document whose native extraction yields 800 normalized characters of
extended-Latin mojibake, with no usable recode and OCR unavailable: every
strategy fails. -/
def docAllFail : PdfDocument :=
  { pageCount := 10,
    pdftotextText := String.mk (List.replicate 800 'Ã'),
    pdftotextMetrics := ⟨800, 0, 0, 1⟩,
    mojibakeDetected := false,
    decodedText := "",
    decodedMetrics := ⟨0, 0, 0, 0⟩,
    pagesRendered := false,
    tesseractCliAvailable := false,
    ocrText := "",
    ocrMetrics := ⟨0, 0, 0, 0⟩ }

/-- A legacy windows-1253 gazette issue: the native text layer normalizes to
800 characters of extended-Latin mojibake (unusable, and flagged by
`detectMojibake`), while redecoding the raw bytes under windows-1253 recovers
usable Greek text (1900 characters, two article headings, 90% Greek letters —
the dropped masthead lines of the native pass survive the recode pass, so the
recode is longer than the native normalization).  The text fields abbreviate
the recovered text; the metrics fields are the oracle outputs of
`assessTextQuality` for the full strategy outputs. -/
def docMojibakeRescue : PdfDocument :=
  { pageCount := 10,
    pdftotextText := String.mk (List.replicate 800 'Ã'),
    pdftotextMetrics := ⟨800, 0, 0, 1⟩,
    mojibakeDetected := true,
    decodedText := "Άρθρο 1 — ανακτημένο κείμενο",
    decodedMetrics := ⟨1900, 9/10, 2, 0⟩,
    pagesRendered := false,
    tesseractCliAvailable := false,
    ocrText := "",
    ocrMetrics := ⟨0, 0, 0, 0⟩ }

/-- A digitally-typeset document whose native text layer is long and fully
Greek (6000 α's): usable via the long-text gate. -/
def docNativeUsable : PdfDocument :=
  { pageCount := 4,
    pdftotextText := String.mk (List.replicate 6000 'α'),
    pdftotextMetrics := ⟨6000, 1, 0, 0⟩,
    mojibakeDetected := false,
    decodedText := "",
    decodedMetrics := ⟨0, 0, 0, 0⟩,
    pagesRendered := true,
    tesseractCliAvailable := true,
    ocrText := "",
    ocrMetrics := ⟨0, 0, 0, 0⟩ }

/-! ## The two noise-line filters (C8)

`pdf-extractor.ts` `normalizeText` and `parser.ts` `normalizeProvisionBody`
both filter the lines of their input; the per-line predicates are translated
here.  Case-insensitive matching of the `iu` regexes is `foldChar`-based. -/

/-- Case-insensitive literal match at the head of the input; returns the rest
of the input past the literal on success. -/
def ciStartsWith : List Char → List Char → Option (List Char)
  | [], s => some s
  | _ :: _, [] => none
  | p :: ps, c :: cs => if foldChar c = foldChar p then ciStartsWith ps cs else none

/-- Does `p` hold of some suffix of the input (an unanchored regex test)? -/
def existsPos (p : List Char → Bool) : List Char → Bool
  | [] => p []
  | c :: cs => p (c :: cs) || existsPos p cs

/-- Case-insensitive containment of a literal. -/
def ciContainsLit (pat : List Char) (s : List Char) : Bool :=
  existsPos (fun t => (ciStartsWith pat t).isSome) s

/-- `.*` followed by a case-insensitive literal: some suffix past only
non-line-terminator characters starts with the literal. -/
def scanDotStar (pat : List Char) : List Char → Bool
  | [] => (ciStartsWith pat []).isSome
  | c :: cs => (ciStartsWith pat (c :: cs)).isSome || (!isLineTerm c && scanDotStar pat cs)

/-- A string of `lo` to `hi` ASCII digits (the `^\d{lo,hi}$` tests). -/
def digitsOnly (t : List Char) (lo hi : Nat) : Bool :=
  t.all isAsciiDigit && lo ≤ t.length && t.length ≤ hi

/-- The separator-rule class `[\/*\-_=]` of `normalizeText`. -/
def isSepChar (c : Char) : Bool :=
  c = '/' || c = '*' || c = '-' || c = '_' || c = '='

/-- `normalizeText`'s `^[\/*\-_=]{3,}$` test. -/
def sepLine (t : List Char) : Bool := t.all isSepChar && 3 ≤ t.length

/-- `normalizeText`'s `^Αρ\.\s*Φύλλου\s+\d+` test (`iu`). -/
def matchArFyllou (t : List Char) : Bool :=
  match ciStartsWith "αρ.".data t with
  | none => false
  | some r1 =>
    match ciStartsWith "φύλλου".data (r1.dropWhile isJsSpace) with
    | none => false
    | some r3 =>
      match r3 with
      | c :: r4 =>
        isJsSpace c &&
          (match r4.dropWhile isJsSpace with
           | d :: _ => isAsciiDigit d
           | [] => false)
      | [] => false

/-- One position of `normalizeText`'s `ΕΦΗΜΕΡΙ[ΣΣ]\s+ΤΗΣ\s+ΚΥΒΕΡΝΗΣΕΩΣ` test
(`iu`; the `[ΣΣ]` class is the single letter Σ, which under case folding also
matches σ and ς). -/
def matchMastheadAt (t : List Char) : Bool :=
  match ciStartsWith "εφημερισ".data t with
  | none => false
  | some r1 =>
    match r1 with
    | c :: _ =>
      isJsSpace c &&
        (match ciStartsWith "τησ".data (r1.dropWhile isJsSpace) with
         | none => false
         | some r3 =>
           match r3 with
           | c2 :: _ =>
             isJsSpace c2 &&
               (ciStartsWith "κυβερνησεωσ".data (r3.dropWhile isJsSpace)).isSome
           | [] => false)
    | [] => false

/-- The class `[Α-ΩA-Za-z]` under the `iu` flag: characters whose simple case
folding lands in α–ω or a–z (or the unassigned capital-range point 0x3a2). -/
def isGreekCapsOrLatinCI (d : Char) : Bool :=
  let f := foldChar d
  (0x3b1 ≤ f.toNat && f.toNat ≤ 0x3c9) || (97 ≤ f.toNat && f.toNat ≤ 122) ||
    f.toNat = 0x3a2

/-- One position of `normalizeText`'s `ΤΕΥΧΟΣ\s+[Α-ΩA-Za-z]` test (`iu`). -/
def matchTeyxosCapsAt (t : List Char) : Bool :=
  match ciStartsWith "τευχοσ".data t with
  | none => false
  | some r1 =>
    match r1 with
    | c :: _ =>
      isJsSpace c &&
        (match r1.dropWhile isJsSpace with
         | d :: _ => isGreekCapsOrLatinCI d
         | [] => false)
    | [] => false

/-- The month-name alternation of `normalizeText`
(`Μαΐου|Ιουν|Ιουλ|Αυγ|Σεπ|Οκτ|Νοε|Δεκ|Ιαν|Φεβ|Μαρ|Απρ`, `iu`). -/
def containsMonth (t : List Char) : Bool :=
  ciContainsLit "μαΐου".data t || ciContainsLit "ιουν".data t ||
  ciContainsLit "ιουλ".data t || ciContainsLit "αυγ".data t ||
  ciContainsLit "σεπ".data t || ciContainsLit "οκτ".data t ||
  ciContainsLit "νοε".data t || ciContainsLit "δεκ".data t ||
  ciContainsLit "ιαν".data t || ciContainsLit "φεβ".data t ||
  ciContainsLit "μαρ".data t || ciContainsLit "απρ".data t

/-- The noise tests of `pdf-extractor.ts` `normalizeText` on a trimmed line. -/
def extractorDropsTrimmed (t : List Char) : Bool :=
  digitsOnly t 1 4 || sepLine t || matchArFyllou t ||
    existsPos matchMastheadAt t || (existsPos matchTeyxosCapsAt t && containsMonth t)

/-- The line filter of `pdf-extractor.ts` `normalizeText`: keep blank lines,
drop noise lines. -/
def extractorKeepsLine (line : String) : Bool :=
  let t := (jsTrim line).data
  if t.isEmpty then true else !extractorDropsTrimmed t

/-- `normalizeProvisionBody`'s `^ΕΦΗΜΕΡΙ[ΣΣ].*ΚΥΒΕΡΝΗΣΕΩΣ` test (`iu`),
anchored at the start of the trimmed line. -/
def matchBodyMastheadAt (t : List Char) : Bool :=
  match ciStartsWith "εφημερισ".data t with
  | none => false
  | some r1 => scanDotStar "κυβερνησεωσ".data r1

/-- The class `[A-Za-zΑ-ΩΆ-Ώ]` under the `iu` flag: characters whose simple
case folding lands in a–z, α–ω, the folded accented vowels ά έ ή ί ό ύ ώ, or
the non-cased points of the Ά–Ώ range (0x387, 0x38b, 0x38d) and 0x3a2. -/
def isBodyLetterCI (d : Char) : Bool :=
  let f := foldChar d
  (97 ≤ f.toNat && f.toNat ≤ 122) || (0x3b1 ≤ f.toNat && f.toNat ≤ 0x3c9) ||
    f.toNat = 0x3a2 || f.toNat = 0x3ac || f.toNat = 0x3ad || f.toNat = 0x3ae ||
    f.toNat = 0x3af || f.toNat = 0x3cc || f.toNat = 0x3cd || f.toNat = 0x3ce ||
    f.toNat = 0x387 || f.toNat = 0x38b || f.toNat = 0x38d

/-- `normalizeProvisionBody`'s `^Τεύχος\s+[A-Za-zΑ-ΩΆ-Ώ].*` test (`iu`),
anchored at the start of the trimmed line (the trailing `.*` always
succeeds). -/
def matchBodyTeyxosAt (t : List Char) : Bool :=
  match ciStartsWith "τεύχοσ".data t with
  | none => false
  | some r1 =>
    match r1 with
    | c :: _ =>
      isJsSpace c &&
        (match r1.dropWhile isJsSpace with
         | d :: _ => isBodyLetterCI d
         | [] => false)
    | [] => false

/-- The noise tests of `parser.ts` `normalizeProvisionBody` on a trimmed
line. -/
def bodyDropsTrimmed (t : List Char) : Bool :=
  matchBodyMastheadAt t || matchBodyTeyxosAt t || digitsOnly t 3 4

/-- The line filter of `parser.ts` `normalizeProvisionBody`: keep blank lines,
drop masthead/issue-type/page-number lines. -/
def bodyKeepsLine (line : String) : Bool :=
  let t := (jsTrim line).data
  if t.isEmpty then true else !bodyDropsTrimmed t

/-! ## Search-result selection (`parser.ts` `pickBestSearchResult`, C10) -/

/-- `fetcher.ts` `SearchLegislationRow`.  `search_LawProtocolNumber` is
`Option`al in the model because the source guards it with `?? ''`. -/
structure SearchLegislationRow where
  search_ID : String
  search_DocumentNumber : String
  search_IssueGroupID : String
  search_IssueDate : String
  search_PublicationDate : String
  search_Pages : String
  search_PrimaryLabel : String
  search_LawID : String
  search_LawProtocolNumber : Option String
  search_Description : String
  search_Score : String
deriving Repr, DecidableEq

/-- The life-cycle states of `parser.ts` `ActTarget`. -/
inductive ActStatus
  | inForce
  | amended
  | repealed
  | notYetInForce
deriving DecidableEq, Repr

/-- `parser.ts` `ActTarget`. -/
structure ActTarget where
  id : String
  lawNumber : String
  year : Int
  legislationCatalogues : String
  shortName : Option String
  status : ActStatus
  titleEn : Option String
  notes : Option String
deriving Repr, DecidableEq

/-- `^(\d{1,2})/(\d{1,2})/(\d{4})` on a character list: the greedy 1–2-digit
groups must be followed by a slash (so a 3+-digit run fails), the year is the
next four digits (no end anchor). -/
def matchUsDatePrefix (cs : List Char) :
    Option (List Char × List Char × List Char) :=
  let run1 := cs.takeWhile isAsciiDigit
  if run1.length = 0 || 2 < run1.length then none
  else
    match cs.dropWhile isAsciiDigit with
    | '/' :: rest2 =>
      let run2 := rest2.takeWhile isAsciiDigit
      if run2.length = 0 || 2 < run2.length then none
      else
        match rest2.dropWhile isAsciiDigit with
        | '/' :: rest4 =>
          let run3 := rest4.take 4
          if run3.length = 4 && run3.all isAsciiDigit then some (run1, run2, run3)
          else none
        | _ => none
    | _ => none

/-- `parser.ts` `parseUsDateToIso`: empty/absent input is falsy; otherwise
match the US date prefix and recompose `YYYY-MM-DD` with zero-padding. -/
def parseUsDateToIso (dateValue : Option String) : Option String :=
  match dateValue with
  | none => none
  | some s =>
    if s = "" then none
    else
      match matchUsDatePrefix s.data with
      | none => none
      | some (m, d, y) =>
        some (String.mk y ++ "-" ++ padStartStr (String.mk m) 2 '0' ++ "-" ++
          padStartStr (String.mk d) 2 '0')

/-- Numeric value of a digit string (`Number.parseInt` on the all-digit year
slice). -/
def digitsVal (cs : List Char) : Nat :=
  cs.foldl (fun a c => a * 10 + (c.toNat - 48)) 0

/-- The year a row's issue date parses to, as `pickBestSearchResult` computes
it (`parseInt(issueDateIso.slice(0, 4), 10)`; `none` models `NaN`). -/
def rowIssueYear (r : SearchLegislationRow) : Option Int :=
  match parseUsDateToIso (some r.search_IssueDate) with
  | none => none
  | some iso => some (digitsVal (iso.data.take 4))

/-- The strict filter of `pickBestSearchResult`: normalized protocol number
equals the target's law number and the issue year equals the target year
(`NaN === year` is false). -/
def strictMatchRow (r : SearchLegislationRow) (t : ActTarget) : Bool :=
  normalizeWhitespace (r.search_LawProtocolNumber.getD "") = t.lawNumber &&
    (match rowIssueYear r with
     | some y => y = t.year
     | none => false)

/-- The law-number-only filter of `pickBestSearchResult`. -/
def numberMatchRow (r : SearchLegislationRow) (t : ActTarget) : Bool :=
  normalizeWhitespace (r.search_LawProtocolNumber.getD "") = t.lawNumber

/-- `parser.ts` `pickBestSearchResult`: null on the empty list; else the first
strict match, else the first law-number match, else the first row. -/
def pickBestSearchResult (rows : List SearchLegislationRow) (target : ActTarget) :
    Option SearchLegislationRow :=
  if rows.isEmpty then none
  else
    let strict := rows.filter (fun r => strictMatchRow r target)
    if 0 < strict.length then strict.head?
    else
      let byNumber := rows.filter (fun r => numberMatchRow r target)
      if 0 < byNumber.length then byNumber.head?
      else rows.head?

/-- A concrete row whose protocol number and year both disagree with the
target: a wholly mismatched record. -/
def rowMismatch : SearchLegislationRow :=
  { search_ID := "123456", search_DocumentNumber := "77",
    search_IssueGroupID := "1", search_IssueDate := "03/15/1999 00:00:00",
    search_PublicationDate := "03/16/1999 00:00:00", search_Pages := "8",
    search_PrimaryLabel := "ΝΟΜΟΣ 999/1999", search_LawID := "999",
    search_LawProtocolNumber := some "999", search_Description := "άσχετος νόμος",
    search_Score := "1.0" }

/-- A target that matches nothing in the row list. -/
def targetNoMatch : ActTarget :=
  { id := "law-4624-2019", lawNumber := "4624", year := 2019,
    legislationCatalogues := "1", shortName := some "Ν. 4624/2019",
    status := ActStatus.inForce, titleEn := none, notes := none }

/-! ## Double-encoded envelope decoding (`fetcher.ts`, C9)

`JSON.parse` is a platform builtin, not code of this repository: the model
takes the two layer parsers as oracle functions.  `parseData` returning
`some none` models a successful parse of a `null`-ish payload (the source's
`?? []` default); returning `none` models a `JSON.parse` throw. -/

/-- One HTTP response as the decode logic sees it (after the retry loop, which
only re-enters on 429/5xx). -/
structure HttpResponse where
  ok : Bool
  statusCode : Nat
  text : String

/-- The fields `request` reads off the outer JSON envelope (each may be
absent in the parsed object). -/
structure OuterEnvelopeJson where
  status : Option String
  message : Option String
  data : Option String

/-- `fetcher.ts` `ApiEnvelope<T>`. -/
structure ApiEnvelope (α : Type) where
  status : String
  message : String
  data : String
  parsedData : Option α

/-- `fetcher.ts` `API_BASE`. -/
def apiBase : String := "https://searchetv99.azurewebsites.net/api"

/-- The decode steps of `fetcher.ts` `request` on a settled response: non-ok
throws with the truncated body; a non-JSON body throws; a non-JSON nested
`data` string throws; otherwise both layers are decoded into the envelope. -/
def requestAttempt {α : Type} (parseEnvelope : String → Option OuterEnvelopeJson)
    (parseData : String → Option (Option α)) (url : String) (resp : HttpResponse) :
    Except String (ApiEnvelope α) :=
  if !resp.ok then
    Except.error ("HTTP " ++ toString resp.statusCode ++ " for " ++ url ++ ": " ++
      String.mk (resp.text.data.take 200))
  else
    match parseEnvelope resp.text with
    | none => Except.error ("Non-JSON response from " ++ url)
    | some env =>
      let rawData := env.data.getD "[]"
      match parseData rawData with
      | none => Except.error ("Invalid nested JSON payload from " ++ url)
      | some parsedData =>
        Except.ok { status := if env.status = some "ok" then "ok" else "error",
                    message := env.message.getD "", data := rawData,
                    parsedData := parsedData }

/-- The shared wrapper step of `searchLegislation` and `getDocumentEntityById`:
a non-`"ok"` envelope status is a hard error, otherwise the fully decoded rows
(defaulted for a `null` payload) are returned. -/
def apiUnwrap {α : Type} (label : String) (dflt : α)
    (res : Except String (ApiEnvelope α)) : Except String α :=
  match res with
  | Except.error e => Except.error e
  | Except.ok result =>
    if result.status ≠ "ok" then
      Except.error ("API error for " ++ label ++ ": " ++ result.message)
    else Except.ok (result.parsedData.getD dflt)

/-- `fetcher.ts` `searchLegislation` on a settled response. -/
def searchLegislationModel (parseEnvelope : String → Option OuterEnvelopeJson)
    (parseData : String → Option (Option (List SearchLegislationRow)))
    (resp : HttpResponse) : Except String (List SearchLegislationRow) :=
  apiUnwrap "/searchlegislation" []
    (requestAttempt parseEnvelope parseData (apiBase ++ "/searchlegislation") resp)

/-- `fetcher.ts` `DocumentEntityByIdRow` (all fields optional). -/
structure DocumentEntityByIdRow where
  documententitybyid_DocumentNumber : Option String
  documententitybyid_IssueGroupID : Option String
  documententitybyid_IssueDate : Option String
  documententitybyid_PublicationDate : Option String
  documententitybyid_Pages : Option String
  documententitybyid_PrimaryLabel : Option String
  documententitybyid_ReReleaseDate : Option String
  documententitybyid_topics_ID : Option String
  documententitybyid_topics_Name : Option String
  documententitybyid_subjects_ID : Option String
  documententitybyid_subjects_Value : Option String

/-- `fetcher.ts` `getDocumentEntityById` on a settled response. -/
def getDocumentEntityByIdModel (parseEnvelope : String → Option OuterEnvelopeJson)
    (parseData : String → Option (Option (List DocumentEntityByIdRow)))
    (searchId : String) (resp : HttpResponse) :
    Except String (List DocumentEntityByIdRow) :=
  apiUnwrap ("/documententitybyid/" ++ searchId) []
    (requestAttempt parseEnvelope parseData
      (apiBase ++ "/documententitybyid/" ++ searchId) resp)

/-! ## Parsed records (`parser.ts`) -/

/-- `parser.ts` `ParsedProvision` (the source's `section` field is spelled
`section'` because `section` is a Lean keyword). -/
structure ParsedProvision where
  provision_ref : String
  chapter : Option String
  section' : String
  title : String
  content : String
deriving Repr, DecidableEq

/-- `parser.ts` `ParsedDefinition`. -/
structure ParsedDefinition where
  term : String
  definition : String
  source_provision : Option String
deriving Repr, DecidableEq

/-- `parser.ts` `ParsedAct` (the source's `type` field, the constant string
`"statute"`, is spelled `type'` because `type` is a Lean keyword). -/
structure ParsedAct where
  id : String
  type' : String
  title : String
  title_en : String
  short_name : String
  status : ActStatus
  issued_date : Option String
  in_force_date : Option String
  url : String
  description : Option String
  provisions : List ParsedProvision
  definitions : List ParsedDefinition
deriving Repr, DecidableEq

/-! ## The two orchestrator loops (C3)

The country-fulltext enrichment loop reads the set of already-written output
files once, then per candidate document skips (counting `skipped_existing`)
when the output exists and `--force` is not set; otherwise it attempts
enrichment (an external network/extraction step, modelled as an oracle
`process` function; `none` models a thrown error) and writes the record on
success.  `ingestTargets` of `scripts/ingest.ts`, by contrast, resolves and
writes every target unconditionally (no existence check); `resolve` models
its per-target network/extraction outcome. -/

/-- The claim-relevant counters of the enrichment progress report. -/
structure EnrichTotals where
  attempted : Nat
  written : Nat
  skipped_existing : Nat
  failed : Nat
deriving Repr, DecidableEq

/-- Disk contents (ids of written output records) plus progress counters. -/
structure EnrichState where
  files : List String
  totals : EnrichTotals
deriving Repr, DecidableEq

/-- Writing an output record: the id is added to the directory if absent. -/
def insertFile (files : List String) (id : String) : List String :=
  if id ∈ files then files else files ++ [id]

/-- One iteration of the country-fulltext enrichment loop over a candidate
document: skip when the output exists in the start-of-run snapshot and
`force` is unset; else attempt, then write on success or record the failure. -/
def enrichStep (process : ParsedAct → Option ParsedAct) (force : Bool)
    (snapshot : List String) (st : EnrichState) (doc : ParsedAct) : EnrichState :=
  if !force && decide (doc.id ∈ snapshot) then
    { st with totals :=
        { st.totals with skipped_existing := st.totals.skipped_existing + 1 } }
  else
    let t1 := { st.totals with attempted := st.totals.attempted + 1 }
    match process doc with
    | some _ =>
        { files := insertFile st.files doc.id,
          totals := { t1 with written := t1.written + 1 } }
    | none => { st with totals := { t1 with failed := t1.failed + 1 } }

/-- One run of the country-fulltext enrichment orchestrator: the
existing-output snapshot is taken once (`existing`), and the loop folds over
the candidate documents. -/
def enrichRun (process : ParsedAct → Option ParsedAct) (force : Bool)
    (existing : List String) (docs : List ParsedAct) : EnrichState :=
  docs.foldl (enrichStep process force existing) { files := existing, totals := ⟨0, 0, 0, 0⟩ }

/-- A concrete enriched act record. -/
def actEx : ParsedAct :=
  { id := "law-4624-2019", type' := "statute", title := "Νόμος 4624/2019",
    title_en := "", short_name := "Ν. 4624/2019", status := ActStatus.inForce,
    issued_date := some "2019-08-29", in_force_date := none,
    url := "https://ia37rg02wpsa01.blob.core.windows.net/fek/01/2019/20190100137.pdf",
    description := some "Νόμος 4624/2019", provisions := [], definitions := [] }

/-- The claim-relevant state of one `ingestTargets` run (`scripts/ingest.ts`):
output records written so far, the `fetched`/`skipped` report counts, and the
number of `writeFileSync` calls performed. -/
structure TargetsRunState where
  files : List String
  fetchedCount : Nat
  skippedCount : Nat
  writeEvents : Nat
deriving Repr, DecidableEq

/-- One iteration of `ingestTargets`: resolve the target (network search,
PDF fetch, extraction — the `resolve` oracle; `none` models a skip reason or a
thrown error) and, on success, write the output record unconditionally.
There is no existence check and no force flag in this loop. -/
def ingestTargetsStep (resolve : ActTarget → Option ParsedAct)
    (st : TargetsRunState) (t : ActTarget) : TargetsRunState :=
  match resolve t with
  | some _ =>
      { files := insertFile st.files t.id, fetchedCount := st.fetchedCount + 1,
        skippedCount := st.skippedCount, writeEvents := st.writeEvents + 1 }
  | none => { st with skippedCount := st.skippedCount + 1 }

/-- One run of `ingestTargets` over the target list. -/
def ingestTargetsRun (resolve : ActTarget → Option ParsedAct)
    (existing : List String) (targets : List ActTarget) : TargetsRunState :=
  targets.foldl (ingestTargetsStep resolve)
    { files := existing, fetchedCount := 0, skippedCount := 0, writeEvents := 0 }

/-! ## Definition extraction (`parser.ts` `extractDefinitionsFromProvisions`,
C4 and C7)

The JavaScript `Map` keyed by the case-folded term is an insertion-ordered
association list whose `set` replaces the value of an existing key in place;
`Array.from(map.values()).slice(0, 100)` is the value list in insertion order
truncated to 100. -/

/-- Whether a character is a cased letter of the Basic Latin or Greek blocks
(the context test of the final-sigma lowercasing rule). -/
def isCasedChar (c : Char) : Bool :=
  (65 ≤ c.toNat && c.toNat ≤ 90) || (97 ≤ c.toNat && c.toNat ≤ 122) ||
  c.toNat = 0x386 || (0x388 ≤ c.toNat && c.toNat ≤ 0x38a) || c.toNat = 0x38c ||
  (0x38e ≤ c.toNat && c.toNat ≤ 0x3a1) || (0x3a3 ≤ c.toNat && c.toNat ≤ 0x3ce)

/-- Single-character lowercase mapping for the Basic Latin and Greek blocks
(capital sigma is handled contextually by `toLowerEl`). -/
def lowerCharEl (c : Char) : Char :=
  if 65 ≤ c.toNat && c.toNat ≤ 90 then Char.ofNat (c.toNat + 32)
  else if 0x391 ≤ c.toNat && c.toNat ≤ 0x3a9 && c.toNat ≠ 0x3a2 && c.toNat ≠ 0x3a3 then
    Char.ofNat (c.toNat + 32)
  else if c.toNat = 0x386 then Char.ofNat 0x3ac
  else if c.toNat = 0x388 then Char.ofNat 0x3ad
  else if c.toNat = 0x389 then Char.ofNat 0x3ae
  else if c.toNat = 0x38a then Char.ofNat 0x3af
  else if c.toNat = 0x38c then Char.ofNat 0x3cc
  else if c.toNat = 0x38e then Char.ofNat 0x3cd
  else if c.toNat = 0x38f then Char.ofNat 0x3ce
  else c

/-- Helper for `toLowerEl`: lowercase with the final-sigma rule (Σ lowers to
ς when preceded by a cased letter and not followed by one), carrying whether
the previous character was cased. -/
def toLowerElAux (prevCased : Bool) : List Char → List Char
  | [] => []
  | c :: rest =>
    if c.toNat = 0x3a3 then
      (if prevCased && !(match rest with
          | d :: _ => isCasedChar d
          | [] => false) then
        Char.ofNat 0x3c2
      else Char.ofNat 0x3c3) :: toLowerElAux true rest
    else lowerCharEl c :: toLowerElAux (isCasedChar c) rest

/-- `String.prototype.toLocaleLowerCase('el')`, restricted to the Basic Latin
and Greek blocks (with the final-sigma contextual rule; other characters map
to themselves). -/
def toLowerEl (s : String) : String :=
  String.mk (toLowerElAux false s.data)

/-- `parser.ts` `isDefinitionsProvision`: the title or the first 200
characters of the content contain the word for definition(s)
(`/Ορισμοί|Ορισμός/iu`). -/
def isDefinitionsProvision (p : ParsedProvision) : Bool :=
  ciContainsLit "Ορισμοί".data p.title.data ||
  ciContainsLit "Ορισμός".data p.title.data ||
  ciContainsLit "Ορισμοί".data (p.content.data.take 200) ||
  ciContainsLit "Ορισμός".data (p.content.data.take 200)

/-- `String.prototype.split('\n')` on the character list. -/
def splitOnNl : List Char → List (List Char)
  | [] => [[]]
  | c :: rest =>
    let r := splitOnNl rest
    if c = '\n' then [] :: r
    else
      match r with
      | h :: t => (c :: h) :: t
      | [] => [[c]]

/-- `content.split('\n').map(l => l.trim()).filter(Boolean)`. -/
def provisionLines (content : String) : List String :=
  ((splitOnNl content.data).map (fun l => jsTrim (String.mk l))).filter
    (fun l => l ≠ "")

/-- The opening-quote class `[«"]` of the quoted-term pattern. -/
def isOpenQuote (c : Char) : Bool := c.toNat = 0xab || c.toNat = 34

/-- The closing-quote class `[»"]` (also the complement class of the term
capture `[^»"]`). -/
def isCloseQuote (c : Char) : Bool := c.toNat = 0xbb || c.toNat = 34

/-- `\s*(.+)$` by greedy `\s*` with backtracking: the largest whitespace
prefix length `k` whose remainder is non-empty and free of line terminators
gives the capture (`none` when no `k` works). -/
def findTailK (cs : List Char) : Nat → Option (List Char)
  | 0 =>
    if !cs.isEmpty && cs.all (fun c => !isLineTerm c) then some cs else none
  | Nat.succ k =>
    let rest := cs.drop (k + 1)
    if !rest.isEmpty && rest.all (fun c => !isLineTerm c) then some rest
    else findTailK cs k

/-- The `\s*(.+)$` suffix of the quoted-term pattern. -/
def matchTailCapture (cs : List Char) : Option (List Char) :=
  findTailK cs (min (cs.takeWhile isJsSpace).length (cs.length - 1))

/-- The `\s*[:\-]\s*(.+)$` suffix of the quoted-term pattern (after the
closing quote): skip whitespace, require a colon or hyphen separator, then
capture the trailing text. -/
def matchSepAndTail (cs : List Char) : Option (List Char) :=
  match cs.dropWhile isJsSpace with
  | c :: rest => if c = ':' || c = '-' then matchTailCapture rest else none
  | [] => none

/-- The quoted-term pattern `[«"]([^»"]{2,120})[»"]\s*[:\-]\s*(.+)$` anchored
at the current position: an opening quote, a 2–120-character run free of
closing quotes, a closing quote, then separator and trailing text. -/
def matchDefLineAt : List Char → Option (List Char × List Char)
  | [] => none
  | c :: rest =>
    if isOpenQuote c then
      let cap := rest.takeWhile (fun d => !isCloseQuote d)
      match rest.dropWhile (fun d => !isCloseQuote d) with
      | _ :: rest2 =>
        if 2 ≤ cap.length && cap.length ≤ 120 then
          match matchSepAndTail rest2 with
          | some tail => some (cap, tail)
          | none => none
        else none
      | [] => none
    else none

/-- `line.match(/[«"]([^»"]{2,120})[»"]\s*[:\-]\s*(.+)$/u)`: the leftmost
position where the pattern matches. -/
def matchDefLine : List Char → Option (List Char × List Char)
  | [] => none
  | c :: rest =>
    match matchDefLineAt (c :: rest) with
    | some r => some r
    | none => matchDefLine rest

/-- One line of a definitions-candidate provision: on a pattern match with
non-empty normalized term and definition and a definition of at least 4
characters, the `(case-folded term, definition record)` entry that the source
passes to `byTerm.set`. -/
def defLineEntry (ref : String) (line : String) :
    Option (String × ParsedDefinition) :=
  match matchDefLine line.data with
  | none => none
  | some (cap, tail) =>
    let term := normalizeWhitespace (String.mk cap)
    let definition := normalizeWhitespace (String.mk tail)
    if term = "" || definition = "" then none
    else if definition.length < 4 then none
    else some (toLowerEl term,
      { term := term, definition := definition, source_provision := some ref })

/-- The stream of `byTerm.set` calls `extractDefinitionsFromProvisions`
performs, in order: definitions-candidate provisions, then their non-blank
trimmed lines, then the pattern/length gates. -/
def defEntryStream (provisions : List ParsedProvision) :
    List (String × ParsedDefinition) :=
  (provisions.filter isDefinitionsProvision).flatMap
    (fun p => (provisionLines p.content).filterMap (defLineEntry p.provision_ref))

/-- JavaScript `Map.set` on an insertion-ordered association list: replace the
value of an existing key in place, else append. -/
def setAssoc (m : List (String × ParsedDefinition)) (k : String)
    (v : ParsedDefinition) : List (String × ParsedDefinition) :=
  match m with
  | [] => [(k, v)]
  | (k', v') :: rest =>
    if k' = k then (k', v) :: rest else (k', v') :: setAssoc rest k v

/-- The `byTerm` map after all `set` calls. -/
def buildDefMap (entries : List (String × ParsedDefinition)) :
    List (String × ParsedDefinition) :=
  entries.foldl (fun m e => setAssoc m e.1 e.2) []

/-- `parser.ts` `extractDefinitionsFromProvisions`:
`Array.from(byTerm.values()).slice(0, 100)`. -/
def extractDefinitionsFromProvisions (provisions : List ParsedProvision) :
    List ParsedDefinition :=
  ((buildDefMap (defEntryStream provisions)).map Prod.snd).take 100

/-- First-match lookup in the association map. -/
def lookupAssoc (m : List (String × ParsedDefinition)) (k : String) :
    Option ParsedDefinition :=
  (m.find? (fun e => decide (e.1 = k))).map Prod.snd

/-- A definitions article in which the same case-folded term «όρος» appears
twice with different definition texts. -/
def provDup : ParsedProvision :=
  { provision_ref := "Art. 2", chapter := none, section' := "2",
    title := "Άρθρο 2 - Ορισμοί",
    content := "«όρος» - η πρώτη έννοια\n«Όρος» - η δεύτερη έννοια" }

/-- The single definition the source returns for `provDup`: the value set by
the SECOND occurrence. -/
def defDupSecond : ParsedDefinition :=
  { term := "Όρος", definition := "η δεύτερη έννοια", source_provision := some "Art. 2" }

/-- Twelve pairwise-distinct lowercase Greek letters used (together with the
out-of-range default `ν`) to render synthetic term tokens. -/
def glyphList : List Char :=
  ['α', 'β', 'γ', 'δ', 'ε', 'ζ', 'η', 'θ', 'ι', 'κ', 'λ', 'μ']

/-- The `k`-th synthetic-term letter: the `k`-th entry of `glyphList`, and `ν`
for `k ≥ 12`, so that indices `0`–`12` carry thirteen distinct letters. -/
def glyph (k : Nat) : Char :=
  match glyphList.drop k with
  | c :: _ => c
  | [] => 'ν'

/-- The two-letter term token of the `i`-th synthetic definition line: the two
base-13 digits of `i`, rendered with `glyph`. -/
def synthTermChars (i : Nat) : List Char := [glyph (i / 13), glyph (i % 13)]

/-- The `i`-th synthetic quoted term/definition line `«⟨term i⟩»:δεζη`. -/
def synthLineChars (i : Nat) : List Char :=
  '«' :: glyph (i / 13) :: glyph (i % 13) :: '»' :: ':' :: 'δ' :: 'ε' :: 'ζ' :: 'η' :: []

/-- The synthetic article body with lines `i, i + 1, …, i + n - 1`, each
terminated by a newline. -/
def synthCharsFrom (i : Nat) : Nat → List Char
  | 0 => []
  | Nat.succ f => synthLineChars i ++ '\n' :: synthCharsFrom (i + 1) f

/-- A synthetic definitions article with 150 quoted term/definition lines
carrying 150 distinct case-folded terms. -/
def synthProvision150 : ParsedProvision :=
  { provision_ref := "Art. 2", chapter := none, section' := "2",
    title := "Άρθρο 2 - Ορισμοί",
    content := String.mk (synthCharsFrom 0 150) }

/-- The `byTerm.set` entry the `i`-th synthetic line produces. -/
def synthEntry (ref : String) (i : Nat) : String × ParsedDefinition :=
  (String.mk (synthTermChars i),
   { term := String.mk (synthTermChars i), definition := "δεζη",
     source_provision := some ref })

/-! ## Provision dedupe and sort (`parser.ts` `dedupeAndSortProvisions`, C6)

`String.prototype.localeCompare(b, 'el')` is an ICU platform builtin, not code
of this repository.  Modelled from the spec: "lexicographic in the document's
script collation" — a deterministic approximation of the ICU Greek collation,
restricted to the characters section tokens can contain: a primary pass that
is case- and accent-insensitive and orders digits before Latin letters before
Greek letters before everything else, with ties broken by exact code points.
`Number.parseInt(s, 10)` is modelled faithfully (leading whitespace, optional
sign, leading digit run, `NaN` as `none`). -/

/-- Lexicographic comparison of two `Nat` lists (a shorter list precedes its
extensions). -/
def cmpNatList : List Nat → List Nat → Ordering
  | [], [] => Ordering.eq
  | [], _ :: _ => Ordering.lt
  | _ :: _, [] => Ordering.gt
  | a :: as, b :: bs =>
    if a < b then Ordering.lt else if b < a then Ordering.gt else cmpNatList as bs

/-- Primary collation weight of one character: case folding, Greek accent
stripping, then a class bucket (digits < Latin < Greek < others) with the
code point as the in-class index. -/
def primaryKeyNat (c : Char) : Nat :=
  let f := (foldChar c).toNat
  let g :=
    if f = 0x3ac then 0x3b1 else if f = 0x3ad then 0x3b5
    else if f = 0x3ae then 0x3b7 else if f = 0x3af then 0x3b9
    else if f = 0x3cc then 0x3bf else if f = 0x3cd then 0x3c5
    else if f = 0x3ce then 0x3c9 else f
  if 48 ≤ g && g ≤ 57 then 0x100000 + g
  else if 97 ≤ g && g ≤ 122 then 0x200000 + g
  else if 0x3b1 ≤ g && g ≤ 0x3c9 then 0x300000 + g
  else 0x400000 + g

/-- The modelled collation: compare the primary weight sequences, break ties
by the exact code point sequences. -/
def collateOrd (a b : String) : Ordering :=
  match cmpNatList (a.data.map primaryKeyNat) (b.data.map primaryKeyNat) with
  | Ordering.eq => cmpNatList (a.data.map Char.toNat) (b.data.map Char.toNat)
  | o => o

/-- The modelled `localeCompare(·, 'el')` (sign of the collation). -/
def collateEl (a b : String) : Int :=
  match collateOrd a b with
  | Ordering.lt => -1
  | Ordering.eq => 0
  | Ordering.gt => 1

/-- The digit-run value parser underlying `parseIntPrefix`. -/
def digitRunVal (cs : List Char) : Option Nat :=
  let run := cs.takeWhile isAsciiDigit
  if run.isEmpty then none else some (digitsVal run)

/-- `Number.parseInt(s, 10)`: skip whitespace, optional sign, then the leading
digit run; `none` models `NaN`. -/
def parseIntPrefix (s : String) : Option Int :=
  match s.data.dropWhile isJsSpace with
  | [] => none
  | c :: rest =>
    if c = '-' then (digitRunVal rest).map (fun n => -(n : Int))
    else if c = '+' then (digitRunVal rest).map (fun n => (n : Int))
    else (digitRunVal (c :: rest)).map (fun n => (n : Int))

/-- The sort comparator of `dedupeAndSortProvisions`: numeric difference when
both section tokens parse as numbers and differ, else the locale
comparison. -/
def cmpProvisions (a b : ParsedProvision) : Int :=
  match parseIntPrefix a.section', parseIntPrefix b.section' with
  | some x, some y =>
    if x ≠ y then x - y else collateEl a.section' b.section'
  | _, _ => collateEl a.section' b.section'

/-- Whitespace-normalized content length (the dedupe tiebreak measure). -/
def normContentLen (p : ParsedProvision) : Nat :=
  (normalizeWhitespace p.content).length

/-- One `byRef.set`-or-keep step of the dedupe map: the first provision with
the same `provision_ref` is replaced in place when the new one's normalized
content is strictly longer; a new ref is appended. -/
def updateProvision : List ParsedProvision → ParsedProvision → List ParsedProvision
  | [], p => [p]
  | q :: rest, p =>
    if q.provision_ref = p.provision_ref then
      if normContentLen q < normContentLen p then p :: rest else q :: rest
    else q :: updateProvision rest p

/-- The `byRef` map of `dedupeAndSortProvisions`, in insertion order. -/
def dedupeByRef (l : List ParsedProvision) : List ParsedProvision :=
  l.foldl updateProvision []

/-- `parser.ts` `dedupeAndSortProvisions`: dedupe by `provision_ref` keeping
the longest normalized content, then sort with the numeric/locale comparator
(V8's `Array.prototype.sort` is stable; on the digit-initial section tokens
the parser produces, the comparator is consistent and the result is the
stable merge sort). -/
def dedupeAndSortProvisions (provisions : List ParsedProvision) : List ParsedProvision :=
  (dedupeByRef provisions).mergeSort (fun a b => decide (cmpProvisions a b ≤ 0))

/-- The numeric key a digit-initial section token sorts by (0 for `NaN`,
which the digit-initial hypothesis rules out). -/
def sectionNumKey (p : ParsedProvision) : Int :=
  (parseIntPrefix p.section').getD 0

/-- A globally transitive and total comparator that agrees with the source's
comparator on provisions whose section tokens start with a digit (every
section token the segmenter produces does). -/
def leGood (p q : ParsedProvision) : Bool :=
  decide (sectionNumKey p < sectionNumKey q ∨
    (sectionNumKey p = sectionNumKey q ∧
      collateOrd p.section' q.section' ≠ Ordering.gt))

/-- Does the section token start with an ASCII digit?  True of every token
the segmenter's heading regex can produce (`[0-9]{1,3}` followed by letter
marks). -/
def sectionDigitInitial (p : ParsedProvision) : Bool :=
  match p.section'.data with
  | c :: _ => isAsciiDigit c
  | [] => false

/-- The ordering property the spec claims of the final provision list: numeric
order on the section values when both section tokens parse as numbers (with
the locale comparison as tiebreak on equal values), and the locale comparison
otherwise. -/
def claimOrder (p q : ParsedProvision) : Prop :=
  (∀ x y : Int, parseIntPrefix p.section' = some x →
    parseIntPrefix q.section' = some y →
    x ≤ y ∧ (x = y → collateEl p.section' q.section' ≤ 0)) ∧
  ((parseIntPrefix p.section' = none ∨ parseIntPrefix q.section' = none) →
    collateEl p.section' q.section' ≤ 0)

/-- Article 10 of a synthetic act. -/
def provA10 : ParsedProvision :=
  { provision_ref := "Art. 10", chapter := none, section' := "10",
    title := "Άρθρο 10", content := "δέκατο άρθρο κείμενο εδώ" }

/-- A short duplicate slice of article 2. -/
def provA2short : ParsedProvision :=
  { provision_ref := "Art. 2", chapter := none, section' := "2",
    title := "Άρθρο 2", content := "σύντομο" }

/-- A longer duplicate slice of article 2. -/
def provA2long : ParsedProvision :=
  { provision_ref := "Art. 2", chapter := none, section' := "2",
    title := "Άρθρο 2", content := "μακρύτερο κείμενο δεύτερου άρθρου" }

/-- A parse-shaped provisions list with a duplicated section. -/
def provisionsEx : List ParsedProvision := [provA10, provA2short, provA2long]

/-- C2: the code's `isTextUsable` agrees with the spec's formula on every
metrics record. -/
theorem isTextUsable_eq_specUsableFormula (m : TextQualityMetrics) :
    isTextUsable m = specUsableFormula m := by
  rw [Bool.eq_iff_iff]
  unfold isTextUsable specUsableFormula
  split_ifs with h1 h2 h3 <;>
    simp only [Bool.and_eq_true, Bool.or_eq_true, decide_eq_true_eq]
  · constructor
    · intro h; exact h.elim
    · rintro ⟨h, -⟩; exact absurd h (by omega)
  · exact ⟨fun _ => ⟨by omega, Or.inl (Or.inl h2)⟩, fun _ => trivial⟩
  · exact ⟨fun _ => ⟨by omega, Or.inl (Or.inr h3)⟩, fun _ => trivial⟩
  · constructor
    · rintro ⟨hc, hg⟩; exact ⟨by omega, Or.inr ⟨hc, hg⟩⟩
    · rintro ⟨-, ((h | h) | h)⟩
      · exact absurd h h2
      · exact absurd h h3
      · exact h

/-- Helper for C1: once the native and mojibake strategies have failed, if the
OCR strategy is not attempted or its metrics are unusable, and the low-quality
fallback is disabled, the call ends in the extraction-quality error. -/
theorem extractAfterMojibake_error (doc : PdfDocument) (options : PdfExtractionOptions)
    (cands : List PdfExtractionResult) (warnings : List String)
    (h3 : options.enableOcr = true →
      options.maxOcrPages.getD 35 < doc.pageCount ∨ doc.pagesRendered = false ∨
        isTextUsable doc.ocrMetrics = false)
    (h4 : options.allowLowQualityFallback.getD false = false) :
    (extractAfterMojibake doc options cands warnings).result =
      Except.error (qualityErrorMsg doc.pdftotextMetrics) := by
  unfold extractAfterMojibake
  by_cases ho : options.enableOcr
  · by_cases hp : options.maxOcrPages.getD 35 < doc.pageCount
    · simp [ho, hp, h4]
    · by_cases hr : doc.pagesRendered
      · have hc : isTextUsable doc.ocrMetrics = false := by
          rcases h3 ho with h | h | h
          · exact absurd h hp
          · rw [hr] at h; exact absurd h (by simp)
          · exact h
        simp [ho, hp, hr, hc, h4]
      · simp [ho, hp, hr, h4]
  · simp [ho, h4]

/-- C1 (amended): if no attempted strategy's metrics pass the usability test —
native unusable, the mojibake recode (when detected) unusable, and OCR either
not attempted (disabled, over the page ceiling, or rendering no pages) or
unusable — and the low-quality fallback is disabled, then
`extractTextFromPdfBuffer` fails with the extraction-quality error and returns
no text. -/
theorem extract_no_usable_no_fallback_errors (doc : PdfDocument)
    (options : PdfExtractionOptions)
    (h1 : isTextUsable doc.pdftotextMetrics = false)
    (h2 : doc.mojibakeDetected = true → isTextUsable doc.decodedMetrics = false)
    (h3 : options.enableOcr = true →
      options.maxOcrPages.getD 35 < doc.pageCount ∨ doc.pagesRendered = false ∨
        isTextUsable doc.ocrMetrics = false)
    (h4 : options.allowLowQualityFallback.getD false = false) :
    (extractTextFromPdfBuffer doc options).result =
      Except.error (qualityErrorMsg doc.pdftotextMetrics) := by
  unfold extractTextFromPdfBuffer
  by_cases hm : doc.mojibakeDetected
  · simp only [h1, hm, h2 hm]
    simp only [Bool.false_eq_true, if_false, if_true]
    exact extractAfterMojibake_error doc options _ _ h3 h4
  · simp only [h1, hm]
    simp only [Bool.false_eq_true, if_false]
    exact extractAfterMojibake_error doc options _ _ h3 h4

/-- Witness for C1's amended theorem at a concrete document with
`charCount = 800`, `enableOcr = false`, `allowLowQualityFallback = false`. -/
theorem extract_no_usable_no_fallback_errors_witness :
    (extractTextFromPdfBuffer docAllFail ⟨false, none, some false⟩).result =
      Except.error (qualityErrorMsg docAllFail.pdftotextMetrics) :=
  extract_no_usable_no_fallback_errors docAllFail ⟨false, none, some false⟩
    (by norm_num [isTextUsable, docAllFail]) (by intro h; simp [docAllFail] at h)
    (by intro h; simp at h) (by rfl)

/-- Counterexample to C1 as stated: a document whose native extraction yields
`charCount = 800`, called with `enableOcr = false` and
`allowLowQualityFallback = false`, does NOT always raise an extraction-quality
error — when the mojibake recode strategy is usable the call succeeds with
method `pdftotext_windows1253`. -/
theorem extract_charCount800_not_always_error :
    docMojibakeRescue.pdftotextMetrics.charCount = 800 ∧
    (extractTextFromPdfBuffer docMojibakeRescue ⟨false, none, some false⟩).result.toOption.map
        (fun r => r.method) = some ExtractionMethod.pdftotextWindows1253 := by
  have hnat : isTextUsable docMojibakeRescue.pdftotextMetrics = false := by
    norm_num [isTextUsable, docMojibakeRescue]
  have hdec : isTextUsable docMojibakeRescue.decodedMetrics = true := by
    norm_num [isTextUsable, docMojibakeRescue]
  have hmoj : docMojibakeRescue.mojibakeDetected = true := rfl
  refine ⟨rfl, ?_⟩
  unfold extractTextFromPdfBuffer
  simp only [hnat, hmoj, hdec, Bool.false_eq_true, eq_self_iff_true, if_true, if_false]
  rfl

/-- C5: if the normalized native text-layer extraction is usable, the call
returns immediately with method `pdftotext`, and neither a page-rasterization
call nor an OCR recognition call occurs, regardless of the OCR options. -/
theorem extract_native_usable_short_circuit (doc : PdfDocument)
    (options : PdfExtractionOptions) (h : isTextUsable doc.pdftotextMetrics = true) :
    extractTextFromPdfBuffer doc options =
      ⟨Except.ok { text := doc.pdftotextText, method := .pdftotext,
                   pageCount := doc.pageCount, metrics := doc.pdftotextMetrics,
                   warnings := [] }, false, false⟩ := by
  unfold extractTextFromPdfBuffer
  simp [h]

/-- Witness for C5 at a concrete usable document, with OCR enabled in the
options (it must still never be invoked). -/
theorem extract_native_usable_short_circuit_witness :
    extractTextFromPdfBuffer docNativeUsable ⟨true, none, some true⟩ =
      ⟨Except.ok { text := docNativeUsable.pdftotextText, method := .pdftotext,
                   pageCount := docNativeUsable.pageCount,
                   metrics := docNativeUsable.pdftotextMetrics,
                   warnings := [] }, false, false⟩ :=
  extract_native_usable_short_circuit docNativeUsable ⟨true, none, some true⟩
    (by norm_num [isTextUsable, docNativeUsable])

/-- Counterexample to C8 as stated: the two filters are not equivalent — the
bare page number "12" is discarded by the extraction normalization's filter
(`^\d{1,4}$`) but kept by the body-cleanup filter (whose page-number rule is
`^\d{3,4}$`). -/
theorem noiseFilters_differ_on_12 :
    bodyKeepsLine "12" = true ∧ extractorKeepsLine "12" = false := by
  decide

/-- C8 (amended): the two line filters are not equivalent, but they agree on
bare 3–4-digit page-number lines: both discard any line whose trimmed content
is 3 or 4 ASCII digits. -/
theorem noiseFilters_agree_on_page_numbers (line : String)
    (h : digitsOnly (jsTrim line).data 3 4 = true) :
    extractorKeepsLine line = false ∧ bodyKeepsLine line = false := by
  obtain ⟨⟨hall, h3⟩, h4⟩ :
      ((∀ x ∈ (jsTrim line).data, isAsciiDigit x = true) ∧ 3 ≤ (jsTrim line).length) ∧
        (jsTrim line).length ≤ 4 := by
    simpa [digitsOnly, Bool.and_eq_true, decide_eq_true_eq] using h
  have hlen : (jsTrim line).data.length = (jsTrim line).length := rfl
  have hne : (jsTrim line).data.isEmpty = false := by
    cases hd : (jsTrim line).data with
    | nil =>
      exfalso
      have h0 : (jsTrim line).length = 0 := by rw [← hlen, hd]; rfl
      omega
    | cons c cs => simp [List.isEmpty]
  have hdig14 : digitsOnly (jsTrim line).data 1 4 = true := by
    simp only [digitsOnly, Bool.and_eq_true, decide_eq_true_eq, List.all_eq_true, hlen]
    exact ⟨⟨hall, by omega⟩, h4⟩
  constructor
  · unfold extractorKeepsLine
    simp only [hne, Bool.false_eq_true, if_false, extractorDropsTrimmed, hdig14,
      Bool.true_or, Bool.not_true]
  · unfold bodyKeepsLine
    simp only [hne, Bool.false_eq_true, if_false, bodyDropsTrimmed, h,
      Bool.or_true, Bool.not_true]

/-- Witness for C8's amended theorem at the concrete page-number line "123". -/
theorem noiseFilters_agree_on_page_numbers_witness :
    extractorKeepsLine "123" = false ∧ bodyKeepsLine "123" = false :=
  noiseFilters_agree_on_page_numbers "123" (by decide)

/-- C10: on a non-empty row list `pickBestSearchResult` always returns an
element of the list (never `null`); when no row passes the strict filter and
no row passes the law-number filter, it silently returns the first row; `null`
is returned only for the empty list. -/
theorem pickBestSearchResult_total (rows : List SearchLegislationRow)
    (target : ActTarget) (h : rows ≠ []) :
    (∃ r, pickBestSearchResult rows target = some r ∧ r ∈ rows) ∧
    ((∀ r ∈ rows, strictMatchRow r target = false) →
      (∀ r ∈ rows, numberMatchRow r target = false) →
      pickBestSearchResult rows target = some (rows.head h)) ∧
    pickBestSearchResult ([] : List SearchLegislationRow) target = none := by
  have h0 : rows.isEmpty = false := List.isEmpty_eq_false.mpr h
  refine ⟨?_, ?_, rfl⟩
  · unfold pickBestSearchResult
    rw [h0]
    simp only [Bool.false_eq_true, if_false]
    split_ifs with h1 h2
    · have hne : rows.filter (fun r => strictMatchRow r target) ≠ [] := by
        intro he; rw [he] at h1; simp at h1
      exact ⟨_, List.head?_eq_head hne,
        List.mem_of_mem_filter (List.head_mem hne)⟩
    · have hne : rows.filter (fun r => numberMatchRow r target) ≠ [] := by
        intro he; rw [he] at h2; simp at h2
      exact ⟨_, List.head?_eq_head hne,
        List.mem_of_mem_filter (List.head_mem hne)⟩
    · exact ⟨_, List.head?_eq_head h, List.head_mem h⟩
  · intro hs hn
    have hfs : rows.filter (fun r => strictMatchRow r target) = [] :=
      List.filter_eq_nil_iff.mpr (by intro a ha; rw [hs a ha]; simp)
    have hfn : rows.filter (fun r => numberMatchRow r target) = [] :=
      List.filter_eq_nil_iff.mpr (by intro a ha; rw [hn a ha]; simp)
    unfold pickBestSearchResult
    rw [h0]
    simp only [Bool.false_eq_true, if_false, hfs, hfn]
    simp [List.head?_eq_head h]

/-- Witness for C10: with a single wholly mismatched row, the row itself is
returned (silently) rather than `null`. -/
theorem pickBestSearchResult_total_witness :
    (∃ r, pickBestSearchResult [rowMismatch] targetNoMatch = some r ∧
      r ∈ [rowMismatch]) ∧
    ((∀ r ∈ [rowMismatch], strictMatchRow r targetNoMatch = false) →
      (∀ r ∈ [rowMismatch], numberMatchRow r targetNoMatch = false) →
      pickBestSearchResult [rowMismatch] targetNoMatch =
        some ([rowMismatch].head (by simp))) ∧
    pickBestSearchResult ([] : List SearchLegislationRow) targetNoMatch = none :=
  pickBestSearchResult_total [rowMismatch] targetNoMatch (by simp)

/-- Helper for C9: the generic decode pipeline either throws (outer layer not
JSON, inner layer not JSON, or outer status not "ok") or returns the fully
decoded payload. -/
theorem apiUnwrap_requestAttempt_spec {α : Type}
    (pe : String → Option OuterEnvelopeJson) (pd : String → Option (Option α))
    (url label : String) (dflt : α) (resp : HttpResponse) (hok : resp.ok = true) :
    (pe resp.text = none →
      apiUnwrap label dflt (requestAttempt pe pd url resp) =
        Except.error ("Non-JSON response from " ++ url)) ∧
    (∀ env, pe resp.text = some env → pd (env.data.getD "[]") = none →
      apiUnwrap label dflt (requestAttempt pe pd url resp) =
        Except.error ("Invalid nested JSON payload from " ++ url)) ∧
    (∀ env rows, pe resp.text = some env → pd (env.data.getD "[]") = some rows →
      env.status ≠ some "ok" →
      apiUnwrap label dflt (requestAttempt pe pd url resp) =
        Except.error ("API error for " ++ label ++ ": " ++ env.message.getD "")) ∧
    (∀ env rows, pe resp.text = some env → pd (env.data.getD "[]") = some rows →
      env.status = some "ok" →
      apiUnwrap label dflt (requestAttempt pe pd url resp) =
        Except.ok (rows.getD dflt)) := by
  refine ⟨?_, ?_, ?_, ?_⟩
  · intro hpe
    unfold requestAttempt apiUnwrap
    rw [hok, hpe]
    simp
  · intro env hpe hpd
    unfold requestAttempt apiUnwrap
    rw [hok, hpe]
    simp [hpd]
  · intro env rows hpe hpd hst
    unfold requestAttempt apiUnwrap
    rw [hok, hpe]
    simp [hpd, hst]
  · intro env rows hpe hpd hst
    unfold requestAttempt apiUnwrap
    rw [hok, hpe]
    simp [hpd, hst]

/-- C9: on an HTTP-200 response, `searchLegislation` and
`getDocumentEntityById` either throw or return fully decoded data: an invalid
outer JSON body, an invalid nested JSON `data` string, or a non-"ok" outer
status is a hard error, and the sole success case returns the fully decoded
row payload. -/
theorem searchLegislation_all_or_nothing
    (pe : String → Option OuterEnvelopeJson)
    (pr : String → Option (Option (List SearchLegislationRow)))
    (pdoc : String → Option (Option (List DocumentEntityByIdRow)))
    (sid : String) (resp : HttpResponse) (hok : resp.ok = true) :
    ((pe resp.text = none →
      searchLegislationModel pe pr resp =
        Except.error ("Non-JSON response from " ++ (apiBase ++ "/searchlegislation"))) ∧
    (∀ env, pe resp.text = some env → pr (env.data.getD "[]") = none →
      searchLegislationModel pe pr resp =
        Except.error ("Invalid nested JSON payload from " ++
          (apiBase ++ "/searchlegislation"))) ∧
    (∀ env rows, pe resp.text = some env → pr (env.data.getD "[]") = some rows →
      env.status ≠ some "ok" →
      searchLegislationModel pe pr resp =
        Except.error ("API error for /searchlegislation: " ++ env.message.getD "")) ∧
    (∀ env rows, pe resp.text = some env → pr (env.data.getD "[]") = some rows →
      env.status = some "ok" →
      searchLegislationModel pe pr resp = Except.ok (rows.getD []))) ∧
    ((pe resp.text = none →
      getDocumentEntityByIdModel pe pdoc sid resp =
        Except.error ("Non-JSON response from " ++
          (apiBase ++ "/documententitybyid/" ++ sid))) ∧
    (∀ env rows, pe resp.text = some env → pdoc (env.data.getD "[]") = some rows →
      env.status ≠ some "ok" →
      getDocumentEntityByIdModel pe pdoc sid resp =
        Except.error ("API error for " ++ ("/documententitybyid/" ++ sid) ++ ": " ++
          env.message.getD ""))) := by
  constructor
  · exact apiUnwrap_requestAttempt_spec pe pr (apiBase ++ "/searchlegislation")
      "/searchlegislation" [] resp hok
  · obtain ⟨a, -, c, -⟩ := apiUnwrap_requestAttempt_spec pe pdoc
      (apiBase ++ "/documententitybyid/" ++ sid) ("/documententitybyid/" ++ sid)
      [] resp hok
    exact ⟨a, c⟩

/-- Witness for C9 at a concrete malformed response: an HTTP-200 body that is
not JSON makes `searchLegislation` throw. -/
theorem searchLegislation_all_or_nothing_witness :
    searchLegislationModel (fun _ => none) (fun _ => some (some []))
        ⟨true, 200, "<html>not json</html>"⟩ =
      Except.error ("Non-JSON response from " ++ (apiBase ++ "/searchlegislation")) :=
  (searchLegislation_all_or_nothing (fun _ => none) (fun _ => some (some []))
    (fun _ => some (some [])) "42" ⟨true, 200, "<html>not json</html>"⟩ rfl).1.1 rfl

theorem insertFile_subset (files : List String) (id : String) :
    files ⊆ insertFile files id := by
  unfold insertFile
  split_ifs
  · exact List.Subset.refl files
  · exact List.subset_append_left files [id]

theorem mem_insertFile_self (files : List String) (id : String) :
    id ∈ insertFile files id := by
  unfold insertFile
  split_ifs with h
  · exact h
  · exact List.mem_append_right files (List.mem_singleton.mpr rfl)

theorem enrichStep_files_mono (process : ParsedAct → Option ParsedAct) (force : Bool)
    (snapshot : List String) (st : EnrichState) (doc : ParsedAct) :
    st.files ⊆ (enrichStep process force snapshot st doc).files := by
  unfold enrichStep
  split_ifs
  · exact List.Subset.refl _
  · cases process doc with
    | some a => exact insertFile_subset st.files doc.id
    | none => exact List.Subset.refl _

theorem enrichFold_files_mono (process : ParsedAct → Option ParsedAct) (force : Bool)
    (snapshot : List String) :
    ∀ (docs : List ParsedAct) (st : EnrichState),
      st.files ⊆ (docs.foldl (enrichStep process force snapshot) st).files := by
  intro docs
  induction docs with
  | nil => intro st; exact List.Subset.refl _
  | cons a rest ih =>
    intro st
    rw [List.foldl_cons]
    exact (enrichStep_files_mono process force snapshot st a).trans
      (ih (enrichStep process force snapshot st a))

theorem enrichFold_mem_files (process : ParsedAct → Option ParsedAct)
    (snapshot : List String) :
    ∀ (docs : List ParsedAct) (st : EnrichState),
      (∀ d ∈ docs, (process d).isSome = true) → snapshot ⊆ st.files →
      ∀ d ∈ docs, d.id ∈ (docs.foldl (enrichStep process false snapshot) st).files := by
  intro docs
  induction docs with
  | nil => intro st _ _ d hd; cases hd
  | cons a rest ih =>
    intro st h hs d hd
    rw [List.foldl_cons]
    rcases List.mem_cons.mp hd with rfl | hd'
    · have hstep : d.id ∈ (enrichStep process false snapshot st d).files := by
        unfold enrichStep
        by_cases hm : d.id ∈ snapshot
        · simp only [Bool.not_false, Bool.true_and, hm, decide_eq_true_eq, if_pos]
          exact hs hm
        · rw [if_neg (by simp [hm])]
          cases hp : process d with
          | none =>
            have hc := h d (List.mem_cons_self d rest)
            rw [hp] at hc
            exact absurd hc (by simp)
          | some x => exact mem_insertFile_self st.files d.id
      exact enrichFold_files_mono process false snapshot rest
        (enrichStep process false snapshot st d) hstep
    · exact ih (enrichStep process false snapshot st a)
        (fun e he => h e (List.mem_cons_of_mem a he))
        (hs.trans (enrichStep_files_mono process false snapshot st a)) d hd'

theorem enrichFold_all_existing (process : ParsedAct → Option ParsedAct)
    (snapshot : List String) :
    ∀ (docs : List ParsedAct) (st : EnrichState), (∀ d ∈ docs, d.id ∈ snapshot) →
      docs.foldl (enrichStep process false snapshot) st =
        { files := st.files,
          totals := { st.totals with
            skipped_existing := st.totals.skipped_existing + docs.length } } := by
  intro docs
  induction docs with
  | nil => intro st _; simp
  | cons a rest ih =>
    intro st h
    rw [List.foldl_cons]
    have ha : a.id ∈ snapshot := h a (List.mem_cons_self a rest)
    have hstep : enrichStep process false snapshot st a =
        { st with totals :=
            { st.totals with skipped_existing := st.totals.skipped_existing + 1 } } := by
      unfold enrichStep
      simp [ha]
    rw [hstep, ih _ (fun d hd => h d (List.mem_cons_of_mem a hd))]
    have hn : st.totals.skipped_existing + 1 + rest.length =
        st.totals.skipped_existing + (a :: rest).length := by
      rw [List.length_cons]; omega
    simp only [hn]

/-- C3 (amended): the country-fulltext enrichment orchestrator checks, before
processing a candidate, whether its output record exists in the start-of-run
snapshot, and skips it (counted `skipped_existing`) unless `--force` is set
(with `--force` nothing is ever skipped); consequently, when enrichment
succeeds on every candidate, a second run over the same inputs without force
attempts nothing, writes nothing, leaves the output directory unchanged, and
reports `skipped_existing` equal to the number of candidates. -/
theorem countryFulltext_resumable (process : ParsedAct → Option ParsedAct)
    (existing : List String) (docs : List ParsedAct)
    (h : ∀ d ∈ docs, (process d).isSome = true) :
    (∀ (snapshot : List String) (st : EnrichState) (d : ParsedAct),
      d.id ∈ snapshot →
      enrichStep process false snapshot st d =
        { st with totals :=
            { st.totals with skipped_existing := st.totals.skipped_existing + 1 } }) ∧
    (∀ (snapshot : List String) (st : EnrichState) (d : ParsedAct),
      (enrichStep process true snapshot st d).totals.skipped_existing =
        st.totals.skipped_existing) ∧
    (enrichRun process false (enrichRun process false existing docs).files docs =
      { files := (enrichRun process false existing docs).files,
        totals := { attempted := 0, written := 0,
                    skipped_existing := docs.length, failed := 0 } }) := by
  refine ⟨?_, ?_, ?_⟩
  · intro snapshot st d hd
    unfold enrichStep
    simp [hd]
  · intro snapshot st d
    unfold enrichStep
    simp only [Bool.not_true, Bool.false_and, Bool.false_eq_true, if_false]
    cases process d <;> rfl
  · have hmem : ∀ d ∈ docs, d.id ∈ (enrichRun process false existing docs).files := by
      intro d hd
      exact enrichFold_mem_files process existing docs
        { files := existing, totals := ⟨0, 0, 0, 0⟩ } h
        (List.Subset.refl existing) d hd
    have hrw := enrichFold_all_existing process
      (enrichRun process false existing docs).files docs
      { files := (enrichRun process false existing docs).files, totals := ⟨0, 0, 0, 0⟩ }
      hmem
    show docs.foldl
        (enrichStep process false (enrichRun process false existing docs).files)
        { files := (enrichRun process false existing docs).files, totals := ⟨0, 0, 0, 0⟩ } = _
    rw [hrw]
    simp

/-- Witness for C3's amended theorem: one candidate, successful enrichment,
empty output directory; the second run skips it and writes nothing. -/
theorem countryFulltext_resumable_witness :
    enrichRun (fun d => some d) false
        (enrichRun (fun d => some d) false [] [actEx]).files [actEx] =
      { files := (enrichRun (fun d => some d) false [] [actEx]).files,
        totals := { attempted := 0, written := 0, skipped_existing := 1,
                    failed := 0 } } :=
  (countryFulltext_resumable (fun d => some d) [] [actEx] (by intro d _; rfl)).2.2

/-- Counterexample to C3 as stated: the cited act-target orchestrator
(`ingestTargets`) has no output-record existence check and no forced-rewrite
flag — with one target that resolves successfully, the second run over the
same inputs performs one output-record write again (not zero) and its skip
count is 0 (not the total number of acts). -/
theorem ingestTargets_no_skip_existing :
    (ingestTargetsRun (fun _ => some actEx)
        (ingestTargetsRun (fun _ => some actEx) [] [targetNoMatch]).files
        [targetNoMatch]).writeEvents = 1 ∧
    (ingestTargetsRun (fun _ => some actEx)
        (ingestTargetsRun (fun _ => some actEx) [] [targetNoMatch]).files
        [targetNoMatch]).skippedCount = 0 := by
  constructor <;> rfl

theorem setAssoc_keys (m : List (String × ParsedDefinition)) (k : String)
    (v : ParsedDefinition) :
    (setAssoc m k v).map Prod.fst =
      if k ∈ m.map Prod.fst then m.map Prod.fst else m.map Prod.fst ++ [k] := by
  induction m with
  | nil => simp [setAssoc]
  | cons e rest ih =>
    obtain ⟨k', v'⟩ := e
    by_cases hk : k' = k
    · subst hk
      simp [setAssoc]
    · by_cases hm : k ∈ rest.map Prod.fst
      · simp [setAssoc, hk, ih, hm, List.mem_cons, Ne.symm hk]
      · simp [setAssoc, hk, ih, hm, List.mem_cons, Ne.symm hk]

theorem setAssoc_keys_nodup (m : List (String × ParsedDefinition)) (k : String)
    (v : ParsedDefinition) (h : (m.map Prod.fst).Nodup) :
    ((setAssoc m k v).map Prod.fst).Nodup := by
  rw [setAssoc_keys]
  split_ifs with hm
  · exact h
  · simp [List.nodup_append, h, hm]

theorem foldSet_keys_nodup (entries : List (String × ParsedDefinition)) :
    ∀ (m : List (String × ParsedDefinition)), (m.map Prod.fst).Nodup →
      ((entries.foldl (fun m e => setAssoc m e.1 e.2) m).map Prod.fst).Nodup := by
  induction entries with
  | nil => intro m h; exact h
  | cons e rest ih =>
    intro m h
    rw [List.foldl_cons]
    exact ih (setAssoc m e.1 e.2) (setAssoc_keys_nodup m e.1 e.2 h)

theorem buildDefMap_keys_nodup (entries : List (String × ParsedDefinition)) :
    ((buildDefMap entries).map Prod.fst).Nodup :=
  foldSet_keys_nodup entries [] (by simp)

theorem lookupAssoc_setAssoc (m : List (String × ParsedDefinition)) (k : String)
    (v : ParsedDefinition) (k' : String) :
    lookupAssoc (setAssoc m k v) k' =
      if k' = k then some v else lookupAssoc m k' := by
  induction m with
  | nil =>
    by_cases h : k' = k
    · subst h; simp [setAssoc, lookupAssoc, List.find?]
    · have hd : decide (k = k') = false := decide_eq_false (fun he => h he.symm)
      simp [setAssoc, lookupAssoc, List.find?, hd, h]
  | cons e rest ih =>
    obtain ⟨k₀, v₀⟩ := e
    by_cases h0 : k₀ = k
    · subst h0
      by_cases h : k' = k₀
      · subst h; simp [setAssoc, lookupAssoc, List.find?]
      · have hd : decide (k₀ = k') = false := decide_eq_false (fun he => h he.symm)
        simp [setAssoc, lookupAssoc, List.find?, hd, h]
    · by_cases h : k' = k₀
      · subst h
        simp [setAssoc, h0, lookupAssoc, List.find?]
      · have hd : decide (k₀ = k') = false := decide_eq_false (fun he => h he.symm)
        simp only [setAssoc, h0, if_false, lookupAssoc, List.find?, hd] at ih ⊢
        exact ih

theorem buildDefMap_lookup (entries : List (String × ParsedDefinition)) (k : String) :
    lookupAssoc (buildDefMap entries) k =
      ((entries.filter (fun e => decide (e.1 = k))).getLast?).map Prod.snd := by
  induction entries using List.reverseRecOn with
  | nil => rfl
  | append_singleton es e ih =>
    have hfold : buildDefMap (es ++ [e]) = setAssoc (buildDefMap es) e.1 e.2 := by
      unfold buildDefMap
      rw [List.foldl_append]
      rfl
    rw [hfold, lookupAssoc_setAssoc, List.filter_append]
    by_cases h : k = e.1
    · have hd : decide (e.1 = k) = true := by simp [h]
      have hfil : List.filter (fun x => decide (x.1 = k)) [e] = [e] := by
        simp [List.filter, hd]
      rw [if_pos h, hfil, List.getLast?_concat]
      rfl
    · have hd : decide (e.1 = k) = false := decide_eq_false (fun he => h he.symm)
      have hfil : List.filter (fun x => decide (x.1 = k)) [e] = [] := by
        simp [List.filter, hd]
      rw [if_neg h, hfil, List.append_nil, ih]

theorem lookupAssoc_of_mem (m : List (String × ParsedDefinition))
    (hnd : (m.map Prod.fst).Nodup) (k : String) (v : ParsedDefinition)
    (hm : (k, v) ∈ m) : lookupAssoc m k = some v := by
  induction m with
  | nil => cases hm
  | cons e rest ih =>
    obtain ⟨k₀, v₀⟩ := e
    rcases List.mem_cons.mp hm with he | hm'
    · cases he
      simp [lookupAssoc, List.find?]
    · have hk : k₀ ≠ k := by
        intro hk
        subst hk
        have : k₀ ∈ rest.map Prod.fst :=
          List.mem_map.mpr ⟨(k₀, v), hm', rfl⟩
        exact (List.nodup_cons.mp (by simpa using hnd)).1 this
      have hd : decide (k₀ = k) = false := decide_eq_false hk
      have hrest := ih (List.nodup_cons.mp (by simpa using hnd)).2 hm'
      simpa [lookupAssoc, List.find?, hd] using hrest

theorem setAssoc_pres (P : String × ParsedDefinition → Prop)
    (m : List (String × ParsedDefinition)) (k : String) (v : ParsedDefinition)
    (hm : ∀ e ∈ m, P e) (hv : P (k, v)) : ∀ e ∈ setAssoc m k v, P e := by
  induction m with
  | nil => simpa [setAssoc] using hv
  | cons e₀ rest ih =>
    obtain ⟨k₀, v₀⟩ := e₀
    intro e he
    unfold setAssoc at he
    split_ifs at he with hk
    · subst hk
      rcases List.mem_cons.mp he with rfl | h'
      · exact hv
      · exact hm _ (List.mem_cons_of_mem _ h')
    · rcases List.mem_cons.mp he with rfl | h'
      · exact hm _ (List.mem_cons_self _ _)
      · exact ih (fun x hx => hm x (List.mem_cons_of_mem _ hx)) e h'

theorem foldSet_pres (P : String × ParsedDefinition → Prop) :
    ∀ (entries : List (String × ParsedDefinition))
      (m : List (String × ParsedDefinition)), (∀ e ∈ entries, P e) →
      (∀ e ∈ m, P e) →
      ∀ e ∈ entries.foldl (fun m e => setAssoc m e.1 e.2) m, P e := by
  intro entries
  induction entries with
  | nil => intro m _ hm; exact hm
  | cons a rest ih =>
    intro m he hm
    rw [List.foldl_cons]
    exact ih (setAssoc m a.1 a.2) (fun x hx => he x (List.mem_cons_of_mem a hx))
      (setAssoc_pres P m a.1 a.2 hm
        (by simpa using he a (List.mem_cons_self a rest)))

theorem buildDefMap_pres (P : String × ParsedDefinition → Prop)
    (entries : List (String × ParsedDefinition)) (he : ∀ e ∈ entries, P e) :
    ∀ e ∈ buildDefMap entries, P e :=
  foldSet_pres P entries [] he (by intro e h'; cases h')

theorem defEntryStream_key (provisions : List ParsedProvision) :
    ∀ e ∈ defEntryStream provisions, e.1 = toLowerEl e.2.term := by
  intro e he
  unfold defEntryStream at he
  obtain ⟨p, -, hline⟩ := List.mem_flatMap.mp he
  obtain ⟨line, -, hentry⟩ := List.mem_filterMap.mp hline
  unfold defLineEntry at hentry
  cases hm : matchDefLine line.data with
  | none => rw [hm] at hentry; cases hentry
  | some r =>
    obtain ⟨cap, tail⟩ := r
    rw [hm] at hentry
    simp only at hentry
    split_ifs at hentry with h1 h2
    cases hentry
    rfl

/-- C4 (amended): `extractDefinitionsFromProvisions` returns at most one
definition per case-folded term, and a returned definition is the one recorded
by the LAST matching occurrence of its case-folded term in the processing
order (the position in the returned list is that of the first occurrence, but
`Map.set` replaces the stored value). -/
theorem extractDefinitions_last_occurrence_wins (provisions : List ParsedProvision) :
    ((extractDefinitionsFromProvisions provisions).map
        (fun d => toLowerEl d.term)).Nodup ∧
    ∀ d ∈ extractDefinitionsFromProvisions provisions,
      (((defEntryStream provisions).filter
          (fun e => decide (e.1 = toLowerEl d.term))).getLast?).map Prod.snd =
        some d := by
  have hkeys : ∀ e ∈ buildDefMap (defEntryStream provisions),
      e.1 = toLowerEl e.2.term :=
    buildDefMap_pres _ _ (defEntryStream_key provisions)
  have hnd := buildDefMap_keys_nodup (defEntryStream provisions)
  constructor
  · unfold extractDefinitionsFromProvisions
    rw [List.map_take, List.map_map]
    refine ((List.take_sublist 100 _).nodup ?_)
    have hmapeq : (buildDefMap (defEntryStream provisions)).map
        ((fun d => toLowerEl d.term) ∘ Prod.snd) =
        (buildDefMap (defEntryStream provisions)).map Prod.fst := by
      refine List.map_congr_left ?_
      intro e heM
      exact (hkeys e heM).symm
    rw [hmapeq]
    exact hnd
  · intro d hd
    have hd' : d ∈ (buildDefMap (defEntryStream provisions)).map Prod.snd :=
      (List.take_sublist 100 _).subset hd
    obtain ⟨⟨k, v⟩, heM, hede⟩ := List.mem_map.mp hd'
    dsimp at hede
    subst hede
    have hek : k = toLowerEl v.term := hkeys _ heM
    have hlook := lookupAssoc_of_mem _ hnd k v heM
    rw [buildDefMap_lookup] at hlook
    rw [← hek]
    exact hlook

/-- Counterexample to C4 as stated: with two lines defining the same
case-folded term, exactly one definition is returned, but it is the one from
the LAST matching occurrence ("η δεύτερη έννοια"), not the first
("η πρώτη έννοια") — `Map.set` overwrites the stored value. -/
theorem extractDefinitions_first_does_not_win :
    extractDefinitionsFromProvisions [provDup] = [defDupSecond] := by rfl

/-- Witness for C4's amended theorem at the concrete duplicate-term article:
the returned definition is the last matching entry for its case-folded
term. -/
theorem extractDefinitions_last_occurrence_wins_witness :
    (((defEntryStream [provDup]).filter
        (fun e => decide (e.1 = toLowerEl defDupSecond.term))).getLast?).map
      Prod.snd = some defDupSecond :=
  (extractDefinitions_last_occurrence_wins [provDup]).2 defDupSecond
    (by
      have h : extractDefinitionsFromProvisions [provDup] = [defDupSecond] := by rfl
      rw [h]
      exact List.mem_cons_self _ _)

theorem glyph_cases (k : Nat) : glyph k ∈ glyphList ∨ glyph k = 'ν' := by
  unfold glyph
  cases h : glyphList.drop k with
  | nil => exact Or.inr rfl
  | cons c t =>
    have hc : c ∈ glyphList.drop k := by
      rw [h]
      exact List.mem_cons_self c t
    exact Or.inl (List.drop_subset k glyphList hc)

theorem glyph_inj : ∀ k, k < 13 → ∀ l, l < 13 → glyph k = glyph l → k = l := by decide

theorem glyph_props (k : Nat) :
    isCloseQuote (glyph k) = false ∧ glyph k ≠ '\n' ∧ isJsSpace (glyph k) = false ∧
      isLineTerm (glyph k) = false ∧ lowerCharEl (glyph k) = glyph k ∧
      (glyph k).toNat ≠ 0x3a3 := by
  have hall : ∀ c ∈ ('ν' :: glyphList),
      isCloseQuote c = false ∧ c ≠ '\n' ∧ isJsSpace c = false ∧
        isLineTerm c = false ∧ lowerCharEl c = c ∧ c.toNat ≠ 0x3a3 := by decide
  rcases glyph_cases k with h | h
  · exact hall _ (List.mem_cons_of_mem _ h)
  · exact hall _ (by rw [h]; exact List.mem_cons_self _ _)

theorem splitOnNl_cons (c : Char) (rest : List Char) :
    splitOnNl (c :: rest) =
      if c = '\n' then [] :: splitOnNl rest
      else
        match splitOnNl rest with
        | h :: t => (c :: h) :: t
        | [] => [[c]] := rfl

theorem splitOnNl_no_nl : ∀ (l : List Char), '\n' ∉ l → splitOnNl l = [l] := by
  intro l
  induction l with
  | nil => intro _; rfl
  | cons c rest ih =>
    intro h
    rw [List.mem_cons, not_or] at h
    rw [splitOnNl_cons, if_neg (fun hc => h.1 hc.symm), ih h.2]

theorem splitOnNl_append : ∀ (a : List Char), '\n' ∉ a → ∀ (rest : List Char),
    splitOnNl (a ++ '\n' :: rest) = a :: splitOnNl rest := by
  intro a
  induction a with
  | nil =>
    intro _ rest
    rw [List.nil_append, splitOnNl_cons, if_pos rfl]
  | cons c a ih =>
    intro h rest
    rw [List.mem_cons, not_or] at h
    rw [List.cons_append, splitOnNl_cons, if_neg (fun hc => h.1 hc.symm), ih h.2]

theorem synthLine_no_nl (i : Nat) : '\n' ∉ synthLineChars i := by
  have h1 := (glyph_props (i / 13)).2.1
  have h2 := (glyph_props (i % 13)).2.1
  intro hmem
  unfold synthLineChars at hmem
  rcases List.mem_cons.mp hmem with h | hmem
  · exact absurd h (by decide)
  rcases List.mem_cons.mp hmem with h | hmem
  · exact h1 h.symm
  rcases List.mem_cons.mp hmem with h | hmem
  · exact h2 h.symm
  · exact absurd hmem (by decide)

theorem splitOnNl_synthChars : ∀ (f i : Nat),
    splitOnNl (synthCharsFrom i f) = (List.range' i f).map synthLineChars ++ [[]] := by
  intro f
  induction f with
  | zero => intro i; rfl
  | succ f ih =>
    intro i
    show splitOnNl (synthLineChars i ++ '\n' :: synthCharsFrom (i + 1) f) = _
    rw [splitOnNl_append _ (synthLine_no_nl i), ih (i + 1), List.range'_succ,
      List.map_cons, List.cons_append]

theorem dropWhile_no (p : Char → Bool) (l : List Char) (h : ∀ c ∈ l, p c = false) :
    List.dropWhile p l = l := by
  cases l with
  | nil => rfl
  | cons c t =>
    rw [List.dropWhile_cons, h c (List.mem_cons_self c t)]
    simp

theorem jsTrim_no_space (l : List Char) (h : ∀ c ∈ l, isJsSpace c = false) :
    jsTrim (String.mk l) = String.mk l := by
  unfold jsTrim
  rw [show (String.mk l).data = l from rfl]
  rw [dropWhile_no _ _ h]
  rw [dropWhile_no _ _ (fun c hc => h c (List.mem_reverse.mp hc))]
  rw [List.reverse_reverse]

theorem collapseWs_no_space : ∀ (l : List Char), (∀ c ∈ l, isJsSpace c = false) →
    collapseWsAux false l = l := by
  intro l
  induction l with
  | nil => intro _; rfl
  | cons c t ih =>
    intro h
    have key : collapseWsAux false (c :: t) =
        if isJsSpace c then ' ' :: collapseWsAux true t else c :: collapseWsAux false t := rfl
    rw [key, h c (List.mem_cons_self c t)]
    show c :: collapseWsAux false t = c :: t
    exact congrArg (c :: ·) (ih (fun d hd => h d (List.mem_cons_of_mem c hd)))

theorem normalizeWhitespace_no_space (l : List Char) (h : ∀ c ∈ l, isJsSpace c = false) :
    normalizeWhitespace (String.mk l) = String.mk l := by
  unfold normalizeWhitespace
  rw [show (String.mk l).data = l from rfl, collapseWs_no_space l h, jsTrim_no_space l h]

theorem synthLine_no_space (i : Nat) : ∀ c ∈ synthLineChars i, isJsSpace c = false := by
  have h1 := (glyph_props (i / 13)).2.2.1
  have h2 := (glyph_props (i % 13)).2.2.1
  have htail : ∀ d ∈ ['«', '»', ':', 'δ', 'ε', 'ζ', 'η'], isJsSpace d = false := by decide
  intro c hc
  unfold synthLineChars at hc
  rcases List.mem_cons.mp hc with h | hc
  · rw [h]; exact htail _ (by decide)
  rcases List.mem_cons.mp hc with h | hc
  · rw [h]; exact h1
  rcases List.mem_cons.mp hc with h | hc
  · rw [h]; exact h2
  · exact htail c (List.mem_cons_of_mem '«' hc)

theorem synthTerm_no_space (i : Nat) : ∀ c ∈ synthTermChars i, isJsSpace c = false := by
  have h1 := (glyph_props (i / 13)).2.2.1
  have h2 := (glyph_props (i % 13)).2.2.1
  intro c hc
  unfold synthTermChars at hc
  rcases List.mem_cons.mp hc with h | hc
  · rw [h]; exact h1
  rcases List.mem_cons.mp hc with h | hc
  · rw [h]; exact h2
  · exact absurd hc (List.not_mem_nil c)

theorem provisionLines_synth :
    provisionLines synthProvision150.content =
      (List.range' 0 150).map (fun i => String.mk (synthLineChars i)) := by
  unfold provisionLines
  rw [show synthProvision150.content.data = synthCharsFrom 0 150 from rfl,
    splitOnNl_synthChars 150 0, List.map_append, List.filter_append, List.map_map]
  have hmap : (List.range' 0 150).map ((fun l => jsTrim (String.mk l)) ∘ synthLineChars) =
      (List.range' 0 150).map (fun i => String.mk (synthLineChars i)) :=
    List.map_congr_left (fun i _ => jsTrim_no_space _ (synthLine_no_space i))
  rw [hmap]
  have hfilter : ((List.range' 0 150).map (fun i => String.mk (synthLineChars i))).filter
      (fun l => l ≠ "") = (List.range' 0 150).map (fun i => String.mk (synthLineChars i)) := by
    rw [List.filter_eq_self]
    intro s hs
    obtain ⟨i, _, rfl⟩ := List.mem_map.mp hs
    simp [synthLineChars, String.ext_iff]
  rw [hfilter]
  have h2 : (([[]] : List (List Char)).map (fun l => jsTrim (String.mk l))).filter
      (fun l => l ≠ "") = [] := by rfl
  rw [h2, List.append_nil]

theorem matchDefLineAt_shape (a b : Char) (ha : isCloseQuote a = false)
    (hb : isCloseQuote b = false) :
    matchDefLineAt ('«' :: a :: b :: '»' :: ':' :: 'δ' :: 'ε' :: 'ζ' :: 'η' :: []) =
      some ([a, b], ['δ', 'ε', 'ζ', 'η']) := by
  have stepT : ∀ (l : List Char) (c : Char), isCloseQuote c = false →
      List.takeWhile (fun d => !isCloseQuote d) (c :: l) =
        c :: List.takeWhile (fun d => !isCloseQuote d) l := by
    intro l c hc
    rw [List.takeWhile_cons]
    simp [hc]
  have stepD : ∀ (l : List Char) (c : Char), isCloseQuote c = false →
      List.dropWhile (fun d => !isCloseQuote d) (c :: l) =
        List.dropWhile (fun d => !isCloseQuote d) l := by
    intro l c hc
    rw [List.dropWhile_cons]
    simp [hc]
  have hcap : (a :: b :: '»' :: ':' :: 'δ' :: 'ε' :: 'ζ' :: 'η' :: ([] : List Char)).takeWhile
      (fun d => !isCloseQuote d) = [a, b] := by
    rw [stepT _ _ ha, stepT _ _ hb]
    rfl
  have hdrop : (a :: b :: '»' :: ':' :: 'δ' :: 'ε' :: 'ζ' :: 'η' :: ([] : List Char)).dropWhile
      (fun d => !isCloseQuote d) = '»' :: ':' :: 'δ' :: 'ε' :: 'ζ' :: 'η' :: [] := by
    rw [stepD _ _ ha, stepD _ _ hb]
    rfl
  show (if isOpenQuote '«' then _ else none) = _
  rw [if_pos (by decide : isOpenQuote '«' = true)]
  simp only [hcap, hdrop]
  rfl

theorem matchDefLine_synth (i : Nat) :
    matchDefLine (synthLineChars i) = some (synthTermChars i, ['δ', 'ε', 'ζ', 'η']) := by
  have h := matchDefLineAt_shape (glyph (i / 13)) (glyph (i % 13))
    (glyph_props (i / 13)).1 (glyph_props (i % 13)).1
  show (match matchDefLineAt (synthLineChars i) with
    | some r => some r
    | none => matchDefLine (glyph (i / 13) :: glyph (i % 13) :: '»' :: ':' :: 'δ' :: 'ε' :: 'ζ' :: 'η' :: [])) = _
  rw [show matchDefLineAt (synthLineChars i) =
    some (synthTermChars i, ['δ', 'ε', 'ζ', 'η']) from h]

theorem toLowerEl_synthTerm (i : Nat) :
    toLowerEl (String.mk (synthTermChars i)) = String.mk (synthTermChars i) := by
  have h1 := glyph_props (i / 13)
  have h2 := glyph_props (i % 13)
  unfold toLowerEl synthTermChars
  rw [show (String.mk [glyph (i / 13), glyph (i % 13)]).data =
    [glyph (i / 13), glyph (i % 13)] from rfl]
  show String.mk (toLowerElAux false [glyph (i / 13), glyph (i % 13)]) = _
  unfold toLowerElAux
  rw [if_neg h1.2.2.2.2.2, h1.2.2.2.2.1]
  unfold toLowerElAux
  rw [if_neg h2.2.2.2.2.2, h2.2.2.2.2.1]
  rfl

theorem defLineEntry_synth (ref : String) (i : Nat) :
    defLineEntry ref (String.mk (synthLineChars i)) = some (synthEntry ref i) := by
  have hterm : normalizeWhitespace (String.mk (synthTermChars i)) =
      String.mk (synthTermChars i) := normalizeWhitespace_no_space _ (synthTerm_no_space i)
  have hnine : decide (String.mk (synthTermChars i) = "") = false := by
    refine decide_eq_false ?_
    intro hcon
    have hd := congrArg String.data hcon
    simp [synthTermChars] at hd
  unfold defLineEntry
  rw [show (String.mk (synthLineChars i)).data = synthLineChars i from rfl,
    matchDefLine_synth i]
  simp only [hterm, hnine,
    show normalizeWhitespace (String.mk ['δ', 'ε', 'ζ', 'η']) = ("δεζη" : String) from rfl,
    toLowerEl_synthTerm i]
  rfl

theorem filterMap_map_all_some {α β γ : Type} (f : β → Option γ) (g : α → β) (h : α → γ) :
    ∀ (l : List α), (∀ a ∈ l, f (g a) = some (h a)) → (l.map g).filterMap f = l.map h := by
  intro l
  induction l with
  | nil => intro _; rfl
  | cons a t ih =>
    intro hl
    rw [List.map_cons, List.filterMap_cons, hl a (List.mem_cons_self a t), List.map_cons,
      ih (fun b hb => hl b (List.mem_cons_of_mem a hb))]

theorem defEntryStream_synth :
    defEntryStream [synthProvision150] = (List.range' 0 150).map (synthEntry "Art. 2") := by
  unfold defEntryStream
  have hdef : isDefinitionsProvision synthProvision150 = true := by decide
  rw [show ([synthProvision150].filter isDefinitionsProvision) = [synthProvision150] by
    rw [List.filter_cons, hdef]; rfl]
  rw [show ([synthProvision150].flatMap (fun p =>
      (provisionLines p.content).filterMap (defLineEntry p.provision_ref))) =
    (provisionLines synthProvision150.content).filterMap (defLineEntry "Art. 2") by
    rw [List.flatMap_cons, List.flatMap_nil, List.append_nil,
      show synthProvision150.provision_ref = "Art. 2" from rfl]]
  rw [provisionLines_synth]
  exact filterMap_map_all_some _ _ _ _ (fun i _ => defLineEntry_synth "Art. 2" i)

theorem synthKeys_nodup :
    ((((List.range' 0 150).map (synthEntry "Art. 2")).map Prod.fst)).Nodup := by
  rw [List.map_map]
  refine List.Nodup.map_on ?_ (List.nodup_range' 0 150)
  intro i hi j hj hstr
  have hi' : i < 150 := by
    have := List.mem_range'_1.mp hi
    omega
  have hj' : j < 150 := by
    have := List.mem_range'_1.mp hj
    omega
  have hdata : synthTermChars i = synthTermChars j := congrArg String.data hstr
  unfold synthTermChars at hdata
  have e1 : glyph (i / 13) = glyph (j / 13) := by
    injection hdata
  have e2 : glyph (i % 13) = glyph (j % 13) := by
    injection hdata with _ h'
    injection h'
  have d1 : i / 13 = j / 13 := by
    refine glyph_inj _ ?_ _ ?_ e1
    · exact (Nat.div_lt_iff_lt_mul (by norm_num)).mpr (by omega)
    · exact (Nat.div_lt_iff_lt_mul (by norm_num)).mpr (by omega)
  have d2 : i % 13 = j % 13 := by
    refine glyph_inj _ ?_ _ ?_ e2
    · exact Nat.mod_lt _ (by norm_num)
    · exact Nat.mod_lt _ (by norm_num)
  have hi13 := Nat.div_add_mod i 13
  have hj13 := Nat.div_add_mod j 13
  omega

theorem setAssoc_length_new : ∀ (m : List (String × ParsedDefinition)) (k : String)
    (v : ParsedDefinition), k ∉ m.map Prod.fst →
    (setAssoc m k v).length = m.length + 1 := by
  intro m
  induction m with
  | nil => intro k v _; rfl
  | cons e rest ih =>
    intro k v h
    rw [List.map_cons, List.mem_cons, not_or] at h
    obtain ⟨k', v'⟩ := e
    show (if k' = k then (k', v) :: rest else (k', v') :: setAssoc rest k v).length = _
    rw [if_neg (fun hc => h.1 hc.symm)]
    rw [List.length_cons, List.length_cons, ih k v h.2]

theorem foldSet_length_nodup :
    ∀ (entries : List (String × ParsedDefinition)) (m : List (String × ParsedDefinition)),
      (entries.map Prod.fst).Nodup → (∀ e ∈ entries, e.1 ∉ m.map Prod.fst) →
      (entries.foldl (fun m e => setAssoc m e.1 e.2) m).length =
        m.length + entries.length := by
  intro entries
  induction entries with
  | nil => intro m _ _; rfl
  | cons e rest ih =>
    intro m hnd hmem
    rw [List.map_cons, List.nodup_cons] at hnd
    have hk : e.1 ∉ m.map Prod.fst := hmem e (List.mem_cons_self e rest)
    have hrest : ∀ e' ∈ rest, e'.1 ∉ (setAssoc m e.1 e.2).map Prod.fst := by
      intro e' he'
      rw [setAssoc_keys, if_neg hk]
      intro hcon
      rcases List.mem_append.mp hcon with hA | hB
      · exact hmem e' (List.mem_cons_of_mem e he') hA
      · have heq : e'.1 = e.1 := by simpa using hB
        exact hnd.1 (heq ▸ List.mem_map_of_mem Prod.fst he')
    rw [List.foldl_cons, ih (setAssoc m e.1 e.2) hnd.2 hrest,
      setAssoc_length_new m e.1 e.2 hk, List.length_cons]
    omega

/-- C7: `extractDefinitionsFromProvisions` returns at most 100 definitions for
every provisions list, and the synthetic definitions article with 150 distinct
quoted term/definition lines yields exactly 100. -/
theorem extractDefinitions_capped :
    (∀ provisions : List ParsedProvision,
      (extractDefinitionsFromProvisions provisions).length ≤ 100) ∧
    (extractDefinitionsFromProvisions [synthProvision150]).length = 100 := by
  constructor
  · intro provisions
    unfold extractDefinitionsFromProvisions
    exact List.length_take_le 100 _
  · unfold extractDefinitionsFromProvisions
    rw [defEntryStream_synth, List.length_take, List.length_map]
    have hlen : (buildDefMap ((List.range' 0 150).map (synthEntry "Art. 2"))).length = 150 := by
      unfold buildDefMap
      rw [foldSet_length_nodup _ _ synthKeys_nodup (by intro e _ hc; simp at hc)]
      rw [List.length_nil, List.length_map, List.length_range']
    rw [hlen]
    omega

theorem cmpNatList_eq_iff : ∀ (xs ys : List Nat), cmpNatList xs ys = Ordering.eq ↔ xs = ys := by
  intro xs
  induction xs with
  | nil =>
    intro ys
    cases ys <;> simp [cmpNatList]
  | cons a as ih =>
    intro ys
    cases ys with
    | nil => simp [cmpNatList]
    | cons b bs =>
      unfold cmpNatList
      split_ifs with h1 h2
      · constructor
        · intro h; cases h
        · intro h
          injection h with h h'
          omega
      · constructor
        · intro h; cases h
        · intro h
          injection h with h h'
          omega
      · have hab : a = b := by omega
        subst hab
        rw [ih bs]
        simp

theorem cmpNatList_swap : ∀ (xs ys : List Nat),
    cmpNatList ys xs = (cmpNatList xs ys).swap := by
  intro xs
  induction xs with
  | nil => intro ys; cases ys <;> rfl
  | cons a as ih =>
    intro ys
    cases ys with
    | nil => rfl
    | cons b bs =>
      unfold cmpNatList
      rcases Nat.lt_trichotomy a b with h | h | h
      · rw [if_neg (by omega : ¬b < a), if_pos h, if_pos h]
        rfl
      · subst h
        rw [if_neg (by omega), if_neg (by omega), if_neg (by omega), if_neg (by omega)]
        exact ih bs
      · rw [if_pos h, if_neg (by omega : ¬a < b), if_pos h]
        rfl

theorem cmpNatList_lt_trans : ∀ (xs ys zs : List Nat),
    cmpNatList xs ys = Ordering.lt → cmpNatList ys zs = Ordering.lt →
    cmpNatList xs zs = Ordering.lt := by
  intro xs
  induction xs with
  | nil =>
    intro ys zs h1 h2
    cases zs with
    | nil =>
      cases ys with
      | nil => cases h1
      | cons b bs => cases h2
    | cons c cs => rfl
  | cons a as ih =>
    intro ys zs h1 h2
    cases ys with
    | nil => cases h1
    | cons b bs =>
      cases zs with
      | nil => cases h2
      | cons c cs =>
        unfold cmpNatList at h1 h2 ⊢
        rcases Nat.lt_trichotomy a b with hab | hab | hab
        · rcases Nat.lt_trichotomy b c with hbc | hbc | hbc
          · rw [if_pos (by omega)]
          · rw [if_pos (by omega : a < c)]
          · rw [if_neg (by omega), if_pos hbc] at h2
            cases h2
        · subst hab
          rw [if_neg (by omega), if_neg (by omega)] at h1
          rcases Nat.lt_trichotomy a c with hac | hac | hac
          · rw [if_pos hac]
          · subst hac
            rw [if_neg (by omega), if_neg (by omega)] at h2 ⊢
            exact ih bs cs h1 h2
          · rw [if_neg (by omega), if_pos hac] at h2
            cases h2
        · rw [if_neg (by omega), if_pos hab] at h1
          cases h1

theorem charToNat_inj {c d : Char} (h : c.toNat = d.toNat) : c = d := by
  have h2 := congrArg Char.ofNat h
  rwa [Char.ofNat_toNat, Char.ofNat_toNat] at h2

theorem mapToNat_inj : ∀ {l1 l2 : List Char},
    l1.map Char.toNat = l2.map Char.toNat → l1 = l2 := by
  intro l1
  induction l1 with
  | nil =>
    intro l2 h
    cases l2 with
    | nil => rfl
    | cons c cs => cases h
  | cons c cs ih =>
    intro l2 h
    cases l2 with
    | nil => cases h
    | cons d ds =>
      injection h with h h'
      rw [charToNat_inj h, ih h']

theorem stringData_inj {a b : String} (h : a.data = b.data) : a = b := by
  cases a
  cases b
  congr 1

theorem collateOrd_eq_iff (a b : String) : collateOrd a b = Ordering.eq ↔ a = b := by
  unfold collateOrd
  cases hp : cmpNatList (a.data.map primaryKeyNat) (b.data.map primaryKeyNat) with
  | eq =>
    rw [cmpNatList_eq_iff]
    constructor
    · intro h
      exact stringData_inj (mapToNat_inj h)
    · intro h
      rw [h]
  | lt =>
    constructor
    · intro h; cases h
    · intro h
      rw [h, (cmpNatList_eq_iff _ _).mpr rfl] at hp
      cases hp
  | gt =>
    constructor
    · intro h; cases h
    · intro h
      rw [h, (cmpNatList_eq_iff _ _).mpr rfl] at hp
      cases hp

theorem collateOrd_swap (a b : String) : collateOrd b a = (collateOrd a b).swap := by
  unfold collateOrd
  rw [cmpNatList_swap (a.data.map primaryKeyNat) (b.data.map primaryKeyNat),
    cmpNatList_swap (a.data.map Char.toNat) (b.data.map Char.toNat)]
  cases cmpNatList (a.data.map primaryKeyNat) (b.data.map primaryKeyNat) <;> rfl

theorem collateOrd_lt_trans (a b c : String) (h1 : collateOrd a b = Ordering.lt)
    (h2 : collateOrd b c = Ordering.lt) : collateOrd a c = Ordering.lt := by
  unfold collateOrd at h1 h2 ⊢
  cases hp1 : cmpNatList (a.data.map primaryKeyNat) (b.data.map primaryKeyNat) with
  | lt =>
    cases hp2 : cmpNatList (b.data.map primaryKeyNat) (c.data.map primaryKeyNat) with
    | lt => rw [cmpNatList_lt_trans _ _ _ hp1 hp2]
    | eq =>
      have hpe2 := (cmpNatList_eq_iff _ _).mp hp2
      rw [← hpe2, hp1]
    | gt =>
      rw [hp2] at h2
      have hgl : Ordering.gt = Ordering.lt := h2
      cases hgl
  | eq =>
    have hpe := (cmpNatList_eq_iff _ _).mp hp1
    rw [hp1] at h1
    have h1' : cmpNatList (a.data.map Char.toNat) (b.data.map Char.toNat) =
        Ordering.lt := h1
    cases hp2 : cmpNatList (b.data.map primaryKeyNat) (c.data.map primaryKeyNat) with
    | lt => rw [hpe, hp2]
    | eq =>
      have hpe2 := (cmpNatList_eq_iff _ _).mp hp2
      rw [hp2] at h2
      have h2' : cmpNatList (b.data.map Char.toNat) (c.data.map Char.toNat) =
          Ordering.lt := h2
      rw [(cmpNatList_eq_iff _ _).mpr (hpe.trans hpe2)]
      exact cmpNatList_lt_trans _ _ _ h1' h2'
    | gt =>
      rw [hp2] at h2
      have hgl : Ordering.gt = Ordering.lt := h2
      cases hgl
  | gt =>
    rw [hp1] at h1
    have hgl : Ordering.gt = Ordering.lt := h1
    cases hgl

theorem collate_notGt_trans (a b c : String) (h1 : collateOrd a b ≠ Ordering.gt)
    (h2 : collateOrd b c ≠ Ordering.gt) : collateOrd a c ≠ Ordering.gt := by
  cases ha : collateOrd a b with
  | gt => exact absurd ha h1
  | eq =>
    obtain rfl := (collateOrd_eq_iff a b).mp ha
    exact h2
  | lt =>
    cases hb : collateOrd b c with
    | gt => exact absurd hb h2
    | eq =>
      obtain rfl := (collateOrd_eq_iff b c).mp hb
      rw [ha]
      simp
    | lt =>
      rw [collateOrd_lt_trans a b c ha hb]
      simp

theorem leGood_trans (p q r : ParsedProvision) (h1 : leGood p q = true)
    (h2 : leGood q r = true) : leGood p r = true := by
  unfold leGood at h1 h2 ⊢
  rw [decide_eq_true_eq] at h1 h2 ⊢
  rcases h1 with h1 | ⟨h1e, h1c⟩
  · rcases h2 with h2 | ⟨h2e, -⟩
    · exact Or.inl (h1.trans h2)
    · exact Or.inl (by omega)
  · rcases h2 with h2 | ⟨h2e, h2c⟩
    · exact Or.inl (by omega)
    · exact Or.inr ⟨by omega, collate_notGt_trans _ _ _ h1c h2c⟩

theorem leGood_total (p q : ParsedProvision) :
    (leGood p q || leGood q p) = true := by
  unfold leGood
  rcases Int.lt_trichotomy (sectionNumKey p) (sectionNumKey q) with h | h | h
  · simp [h]
  · by_cases hc : collateOrd p.section' q.section' = Ordering.gt
    · have : collateOrd q.section' p.section' = Ordering.lt := by
        rw [collateOrd_swap, hc]
        rfl
      simp [h, this]
    · simp [h, hc]
  · simp [h]

theorem parseIntPrefix_digitInitial (p : ParsedProvision)
    (h : sectionDigitInitial p = true) :
    ∃ n : Nat, parseIntPrefix p.section' = some (n : Int) := by
  unfold sectionDigitInitial at h
  cases hd : p.section'.data with
  | nil => rw [hd] at h; cases h
  | cons c rest =>
    rw [hd] at h
    have h' : isAsciiDigit c = true := h
    have hdig : 48 ≤ c.toNat ∧ c.toNat ≤ 57 := by
      simpa [isAsciiDigit, Bool.and_eq_true, decide_eq_true_eq] using h'
    have hns : isJsSpace c = false := by
      simp only [isJsSpace, Bool.or_eq_false_iff, decide_eq_false_iff_not,
        Bool.and_eq_false_iff, decide_eq_true_eq]
      omega
    have hc1 : ¬(c = '-') := by
      intro he
      rw [he] at h'
      exact absurd h' (by decide)
    have hc2 : ¬(c = '+') := by
      intro he
      rw [he] at h'
      exact absurd h' (by decide)
    unfold parseIntPrefix
    rw [hd, List.dropWhile_cons, hns]
    simp only [Bool.false_eq_true, if_false, if_neg hc1, if_neg hc2]
    unfold digitRunVal
    rw [List.takeWhile_cons, h']
    simp only [if_true, List.isEmpty_cons, Bool.false_eq_true, if_false,
      Option.map_some]
    exact ⟨digitsVal (c :: List.takeWhile isAsciiDigit rest), rfl⟩

theorem collateEl_nonpos_iff (a b : String) :
    collateEl a b ≤ 0 ↔ collateOrd a b ≠ Ordering.gt := by
  unfold collateEl
  cases collateOrd a b <;> simp

theorem le_agree (p q : ParsedProvision) (hp : sectionDigitInitial p = true)
    (hq : sectionDigitInitial q = true) :
    decide (cmpProvisions p q ≤ 0) = leGood p q := by
  obtain ⟨m, hm⟩ := parseIntPrefix_digitInitial p hp
  obtain ⟨n, hn⟩ := parseIntPrefix_digitInitial q hq
  unfold cmpProvisions leGood sectionNumKey
  rw [hm, hn]
  simp only [Option.getD_some]
  rw [decide_eq_decide]
  by_cases hxy : (m : Int) = (n : Int)
  · rw [if_neg (by simpa using hxy)]
    rw [collateEl_nonpos_iff]
    constructor
    · intro hc
      exact Or.inr ⟨hxy, hc⟩
    · rintro (hlt | ⟨-, hc⟩)
      · omega
      · exact hc
  · rw [if_pos hxy]
    constructor
    · intro hle
      exact Or.inl (by omega)
    · rintro (hlt | ⟨heq, -⟩)
      · omega
      · exact absurd heq hxy

theorem merge_congr {α : Type} (le le' : α → α → Bool) :
    ∀ (xs ys : List α), (∀ a ∈ xs, ∀ b ∈ ys, le a b = le' a b) →
      xs.merge ys le = xs.merge ys le' := by
  intro xs
  induction xs with
  | nil => intro ys h; simp [List.merge]
  | cons x xs ihx =>
    intro ys
    induction ys with
    | nil => intro h; simp [List.merge]
    | cons y ys ihy =>
      intro h
      rw [List.cons_merge_cons, List.cons_merge_cons]
      have hxy : le x y = le' x y :=
        h x (List.mem_cons_self x xs) y (List.mem_cons_self y ys)
      rw [← hxy]
      by_cases hc : le x y = true
      · rw [if_pos hc, if_pos hc]
        have := ihx (y :: ys) (fun a ha b hb => h a (List.mem_cons_of_mem x ha) b hb)
        rw [this]
      · rw [if_neg hc, if_neg hc]
        have := ihy (fun a ha b hb => h a ha b (List.mem_cons_of_mem y hb))
        rw [this]

theorem mergeSort_congr {α : Type} (le le' : α → α → Bool) :
    ∀ (l : List α), (∀ a ∈ l, ∀ b ∈ l, le a b = le' a b) →
      l.mergeSort le = l.mergeSort le'
  | [], _ => by simp
  | [a], _ => by simp
  | a :: b :: xs, h => by
    have hl1 : (List.splitInTwo ⟨a :: b :: xs, rfl⟩).1.1.length < xs.length + 1 + 1 := by
      simp [List.splitInTwo_fst]
      omega
    have hl2 : (List.splitInTwo ⟨a :: b :: xs, rfl⟩).2.1.length < xs.length + 1 + 1 := by
      simp [List.splitInTwo_snd]
      omega
    have hsub1 : ∀ x ∈ (List.splitInTwo ⟨a :: b :: xs, rfl⟩).1.1, x ∈ a :: b :: xs := by
      intro x hx
      rw [List.splitInTwo_fst] at hx
      exact List.take_subset _ _ hx
    have hsub2 : ∀ x ∈ (List.splitInTwo ⟨a :: b :: xs, rfl⟩).2.1, x ∈ a :: b :: xs := by
      intro x hx
      rw [List.splitInTwo_snd] at hx
      exact List.drop_subset _ _ hx
    rw [List.mergeSort, List.mergeSort]
    rw [mergeSort_congr le le' (List.splitInTwo ⟨a :: b :: xs, rfl⟩).1.1
      (fun x hx y hy => h x (hsub1 x hx) y (hsub1 y hy))]
    rw [mergeSort_congr le le' (List.splitInTwo ⟨a :: b :: xs, rfl⟩).2.1
      (fun x hx y hy => h x (hsub2 x hx) y (hsub2 y hy))]
    apply merge_congr
    intro x hx y hy
    exact h x (hsub1 x (List.mem_mergeSort.mp hx)) y (hsub2 y (List.mem_mergeSort.mp hy))
termination_by l => l.length

theorem updateProvision_mem : ∀ (acc : List ParsedProvision) (p q : ParsedProvision),
    q ∈ updateProvision acc p → q ∈ acc ∨ q = p := by
  intro acc
  induction acc with
  | nil =>
    intro p q hq
    simp only [updateProvision] at hq
    exact Or.inr (by simpa using hq)
  | cons q₀ rest ih =>
    intro p q hq
    unfold updateProvision at hq
    split_ifs at hq with hr hlen
    · rcases List.mem_cons.mp hq with rfl | h'
      · exact Or.inr rfl
      · exact Or.inl (List.mem_cons_of_mem q₀ h')
    · exact Or.inl hq
    · rcases List.mem_cons.mp hq with rfl | h'
      · exact Or.inl (List.mem_cons_self _ _)
      · rcases ih p q h' with h | h
        · exact Or.inl (List.mem_cons_of_mem q₀ h)
        · exact Or.inr h

theorem dedupeFold_subset : ∀ (l acc : List ParsedProvision) (q : ParsedProvision),
    q ∈ l.foldl updateProvision acc → q ∈ acc ∨ q ∈ l := by
  intro l
  induction l with
  | nil => intro acc q hq; exact Or.inl hq
  | cons p rest ih =>
    intro acc q hq
    rw [List.foldl_cons] at hq
    rcases ih (updateProvision acc p) q hq with h | h
    · rcases updateProvision_mem acc p q h with h' | rfl
      · exact Or.inl h'
      · exact Or.inr (List.mem_cons_self _ _)
    · exact Or.inr (List.mem_cons_of_mem p h)

theorem dedupeByRef_subset (l : List ParsedProvision) (q : ParsedProvision)
    (hq : q ∈ dedupeByRef l) : q ∈ l := by
  rcases dedupeFold_subset l [] q hq with h | h
  · cases h
  · exact h

theorem updateProvision_refs (acc : List ParsedProvision) (p : ParsedProvision) :
    (updateProvision acc p).map ParsedProvision.provision_ref =
      if p.provision_ref ∈ acc.map ParsedProvision.provision_ref then
        acc.map ParsedProvision.provision_ref
      else acc.map ParsedProvision.provision_ref ++ [p.provision_ref] := by
  induction acc with
  | nil => simp [updateProvision]
  | cons q₀ rest ih =>
    unfold updateProvision
    by_cases hr : q₀.provision_ref = p.provision_ref
    · have hm : p.provision_ref ∈
          (q₀ :: rest).map ParsedProvision.provision_ref := by
        simp [← hr]
      rw [if_pos hr, if_pos hm]
      split_ifs with hlen
      · simp [hr]
      · rfl
    · rw [if_neg hr]
      by_cases hm : p.provision_ref ∈ rest.map ParsedProvision.provision_ref
      · have hm' : p.provision_ref ∈
            (q₀ :: rest).map ParsedProvision.provision_ref := by simp [hm]
        rw [if_pos hm']
        simp only [List.map_cons, ih, if_pos hm]
      · have hm' : p.provision_ref ∉
            (q₀ :: rest).map ParsedProvision.provision_ref := by
          simp [hm, Ne.symm hr]
        rw [if_neg hm']
        simp only [List.map_cons, ih, if_neg hm, List.cons_append]

theorem updateProvision_refs_nodup (acc : List ParsedProvision) (p : ParsedProvision)
    (h : (acc.map ParsedProvision.provision_ref).Nodup) :
    ((updateProvision acc p).map ParsedProvision.provision_ref).Nodup := by
  rw [updateProvision_refs]
  split_ifs with hm
  · exact h
  · simp [List.nodup_append, h, hm]

theorem mem_refs_updateProvision_self (acc : List ParsedProvision) (p : ParsedProvision) :
    p.provision_ref ∈ (updateProvision acc p).map ParsedProvision.provision_ref := by
  rw [updateProvision_refs]
  split_ifs with hm
  · exact hm
  · exact List.mem_append_right _ (List.mem_singleton.mpr rfl)

theorem refs_mono_updateProvision (acc : List ParsedProvision) (p : ParsedProvision)
    (r : String) (h : r ∈ acc.map ParsedProvision.provision_ref) :
    r ∈ (updateProvision acc p).map ParsedProvision.provision_ref := by
  rw [updateProvision_refs]
  split_ifs with hm
  · exact h
  · exact List.mem_append_left _ h

theorem updateProvision_ge (acc : List ParsedProvision) (p : ParsedProvision)
    (hnd : (acc.map ParsedProvision.provision_ref).Nodup) :
    ∀ q ∈ updateProvision acc p, q.provision_ref = p.provision_ref →
      normContentLen p ≤ normContentLen q := by
  induction acc with
  | nil =>
    intro q hq _
    simp only [updateProvision] at hq
    rw [show q = p from by simpa using hq]
  | cons q₀ rest ih =>
    intro q hq hqr
    have hnd' : q₀.provision_ref ∉ rest.map ParsedProvision.provision_ref ∧
        (rest.map ParsedProvision.provision_ref).Nodup := by
      rw [List.map_cons, List.nodup_cons] at hnd
      exact hnd
    unfold updateProvision at hq
    split_ifs at hq with hr hlen
    · rcases List.mem_cons.mp hq with rfl | h'
      · exact Nat.le_refl _
      · exact absurd (List.mem_map.mpr ⟨q, h', hqr.trans hr.symm⟩) hnd'.1
    · rcases List.mem_cons.mp hq with rfl | h'
      · omega
      · exact absurd (List.mem_map.mpr ⟨q, h', hqr.trans hr.symm⟩) hnd'.1
    · rcases List.mem_cons.mp hq with rfl | h'
      · exact absurd hqr hr
      · exact ih hnd'.2 q h' hqr

theorem updateProvision_slot (acc : List ParsedProvision) (p : ParsedProvision)
    (r : String) (hnd : (acc.map ParsedProvision.provision_ref).Nodup)
    (hr : r ∈ acc.map ParsedProvision.provision_ref) :
    ∀ q ∈ updateProvision acc p, q.provision_ref = r →
      ∃ q₀ ∈ acc, q₀.provision_ref = r ∧ normContentLen q₀ ≤ normContentLen q := by
  induction acc with
  | nil => simp at hr
  | cons q₀ rest ih =>
    intro q hq hqr
    have hnd' : q₀.provision_ref ∉ rest.map ParsedProvision.provision_ref ∧
        (rest.map ParsedProvision.provision_ref).Nodup := by
      rw [List.map_cons, List.nodup_cons] at hnd
      exact hnd
    unfold updateProvision at hq
    split_ifs at hq with h0 hlen
    · rcases List.mem_cons.mp hq with rfl | h'
      · exact ⟨q₀, List.mem_cons_self _ _, h0.trans hqr, Nat.le_of_lt hlen⟩
      · exact ⟨q, List.mem_cons_of_mem _ h', hqr, Nat.le_refl _⟩
    · rcases List.mem_cons.mp hq with rfl | h'
      · exact ⟨q, List.mem_cons_self _ _, hqr, Nat.le_refl _⟩
      · exact ⟨q, List.mem_cons_of_mem _ h', hqr, Nat.le_refl _⟩
    · rcases List.mem_cons.mp hq with rfl | h'
      · exact ⟨q, List.mem_cons_self _ _, hqr, Nat.le_refl _⟩
      · have hr' : r = q₀.provision_ref ∨
            r ∈ rest.map ParsedProvision.provision_ref := by
          rw [List.map_cons] at hr
          exact List.mem_cons.mp hr
        rcases hr' with hre | hre
        · exfalso
          rcases updateProvision_mem rest p q h' with hmem | rfl
          · exact hnd'.1 (List.mem_map.mpr ⟨q, hmem, hqr.trans hre⟩)
          · exact h0 (hre.symm.trans hqr.symm)
        · obtain ⟨q₁, hq₁, hq₁r, hle⟩ := ih hnd'.2 hre q h' hqr
          exact ⟨q₁, List.mem_cons_of_mem _ hq₁, hq₁r, hle⟩

theorem foldUpdate_slot : ∀ (l acc : List ParsedProvision) (r : String) (c : Nat),
    (acc.map ParsedProvision.provision_ref).Nodup →
    r ∈ acc.map ParsedProvision.provision_ref →
    (∀ q ∈ acc, q.provision_ref = r → c ≤ normContentLen q) →
    ∀ q ∈ l.foldl updateProvision acc, q.provision_ref = r → c ≤ normContentLen q := by
  intro l
  induction l with
  | nil => intro acc r c _ _ hc q hq hqr; exact hc q hq hqr
  | cons p rest ih =>
    intro acc r c hnd hr hc q hq hqr
    rw [List.foldl_cons] at hq
    refine ih (updateProvision acc p) r c (updateProvision_refs_nodup acc p hnd)
      (refs_mono_updateProvision acc p r hr) ?_ q hq hqr
    intro q' hq' hq'r
    obtain ⟨q₀, hq₀, hq₀r, hle⟩ := updateProvision_slot acc p r hnd hr q' hq' hq'r
    exact (hc q₀ hq₀ hq₀r).trans hle

theorem dedupeFold_longest : ∀ (l acc : List ParsedProvision),
    (acc.map ParsedProvision.provision_ref).Nodup →
    ∀ p ∈ l, ∀ q ∈ l.foldl updateProvision acc,
      q.provision_ref = p.provision_ref → normContentLen p ≤ normContentLen q := by
  intro l
  induction l with
  | nil => intro acc _ p hp; cases hp
  | cons p₀ rest ih =>
    intro acc hnd p hp q hq hqr
    rw [List.foldl_cons] at hq
    rcases List.mem_cons.mp hp with rfl | hp'
    · exact foldUpdate_slot rest (updateProvision acc p) p.provision_ref
        (normContentLen p) (updateProvision_refs_nodup acc p hnd)
        (mem_refs_updateProvision_self acc p)
        (updateProvision_ge acc p hnd) q hq hqr
    · exact ih (updateProvision acc p₀) (updateProvision_refs_nodup acc p₀ hnd)
        p hp' q hq hqr

theorem foldUpdate_refs_nodup : ∀ (l acc : List ParsedProvision),
    (acc.map ParsedProvision.provision_ref).Nodup →
    ((l.foldl updateProvision acc).map ParsedProvision.provision_ref).Nodup := by
  intro l
  induction l with
  | nil => intro acc h; exact h
  | cons p rest ih =>
    intro acc h
    rw [List.foldl_cons]
    exact ih (updateProvision acc p) (updateProvision_refs_nodup acc p h)

theorem dedupeByRef_refs_nodup (l : List ParsedProvision) :
    ((dedupeByRef l).map ParsedProvision.provision_ref).Nodup :=
  foldUpdate_refs_nodup l [] (by simp)

theorem claimOrder_of_le (p q : ParsedProvision) (h : cmpProvisions p q ≤ 0) :
    claimOrder p q := by
  unfold claimOrder
  unfold cmpProvisions at h
  constructor
  · intro x y hx hy
    rw [hx, hy] at h
    have h' : (if x ≠ y then x - y else collateEl p.section' q.section') ≤ 0 := h
    by_cases hxy : x = y
    · subst hxy
      rw [if_neg (by simp)] at h'
      exact ⟨Int.le_refl x, fun _ => h'⟩
    · rw [if_pos hxy] at h'
      exact ⟨by omega, fun he => absurd he hxy⟩
  · intro hnone
    rcases hnone with hn | hn
    · rw [hn] at h
      cases parseIntPrefix q.section' <;> exact h
    · rw [hn] at h
      cases hp2 : parseIntPrefix p.section' <;> rw [hp2] at h <;> exact h

/-- C6: on provision lists whose `provision_ref` is `"Art. " ++ section` and
whose section tokens start with a digit — both true of everything
`parseProvisionsFromOfficialText` constructs — `dedupeAndSortProvisions`
returns at most one provision per distinct section number, every retained
provision has maximal whitespace-normalized content among same-section inputs,
and the final list is ordered by numeric section value when both tokens parse
as numbers (ties and non-numeric tokens by the modelled Greek collation). -/
theorem dedupeAndSortProvisions_spec (provisions : List ParsedProvision)
    (h1 : ∀ p ∈ provisions, p.provision_ref = "Art. " ++ p.section')
    (h2 : ∀ p ∈ provisions, sectionDigitInitial p = true) :
    (dedupeAndSortProvisions provisions).Pairwise
      (fun p q => p.section' ≠ q.section') ∧
    (∀ p ∈ provisions, ∀ q ∈ dedupeAndSortProvisions provisions,
      q.section' = p.section' → normContentLen p ≤ normContentLen q) ∧
    (dedupeAndSortProvisions provisions).Pairwise claimOrder := by
  have hsubI : ∀ q ∈ dedupeByRef provisions, q ∈ provisions :=
    dedupeByRef_subset provisions
  have hdigI : ∀ q ∈ dedupeByRef provisions, sectionDigitInitial q = true :=
    fun q hq => h2 q (hsubI q hq)
  have hsecref : ∀ p ∈ dedupeByRef provisions, ∀ q ∈ dedupeByRef provisions,
      q.section' = p.section' → q.provision_ref = p.provision_ref := by
    intro p hp q hq hs
    rw [h1 q (hsubI q hq), h1 p (hsubI p hp), hs]
  refine ⟨?_, ?_, ?_⟩
  · have hrefs := dedupeByRef_refs_nodup provisions
    have hpw : (dedupeByRef provisions).Pairwise
        (fun p q => p.provision_ref ≠ q.provision_ref) :=
      List.pairwise_map.mp hrefs
    have hpw2 : (dedupeByRef provisions).Pairwise
        (fun p q => p.section' ≠ q.section') := by
      refine List.Pairwise.imp_of_mem ?_ hpw
      intro a b ha hb hne hs
      exact hne (hsecref a ha b hb hs.symm).symm
    exact ((List.mergeSort_perm (dedupeByRef provisions)
      (fun a b => decide (cmpProvisions a b ≤ 0))).pairwise_iff
      (fun h => h.symm)).mpr hpw2
  · intro p hp q hq hqs
    have hq' : q ∈ dedupeByRef provisions := List.mem_mergeSort.mp hq
    have hqr : q.provision_ref = p.provision_ref := by
      rw [h1 q (hsubI q hq'), h1 p hp, hqs]
    exact dedupeFold_longest provisions [] (by simp) p hp q hq' hqr
  · have hcongr : dedupeAndSortProvisions provisions =
        (dedupeByRef provisions).mergeSort leGood := by
      unfold dedupeAndSortProvisions
      exact mergeSort_congr _ _ _
        (fun a ha b hb => le_agree a b (hdigI a ha) (hdigI b hb))
    rw [hcongr]
    have hsorted := List.sorted_mergeSort leGood_trans leGood_total
      (dedupeByRef provisions)
    refine List.Pairwise.imp_of_mem ?_ hsorted
    intro a b ha hb hle
    have ha' : a ∈ dedupeByRef provisions := List.mem_mergeSort.mp ha
    have hb' : b ∈ dedupeByRef provisions := List.mem_mergeSort.mp hb
    have hle' : decide (cmpProvisions a b ≤ 0) = true := by
      rw [le_agree a b (hdigI a ha') (hdigI b hb')]
      exact hle
    exact claimOrder_of_le a b (of_decide_eq_true hle')

/-- Witness for C6 at a concrete duplicated, unordered provisions list. -/
theorem dedupeAndSortProvisions_spec_witness :
    (dedupeAndSortProvisions provisionsEx).Pairwise
      (fun p q => p.section' ≠ q.section') ∧
    (∀ p ∈ provisionsEx, ∀ q ∈ dedupeAndSortProvisions provisionsEx,
      q.section' = p.section' → normContentLen p ≤ normContentLen q) ∧
    (dedupeAndSortProvisions provisionsEx).Pairwise claimOrder :=
  dedupeAndSortProvisions_spec provisionsEx (by decide) (by decide)
